import Mathlib

/-!
# SecureBlog-RS: verification of the security/integrity pipeline

Shallow embedding of the core of the `secureblog` Rust repository
(`src/rust/src/security.rs` and `src/rust/src/main.rs`): the output
validator with its regex pattern catalog, the integrity-manifest
generator (with a concrete SHA-256), the post loader's size check, and
the HTML sanitizer.

Modelling conventions:
* File contents are modelled as `List Char` (the validator calls
  `read_to_string`, so contents are text; we treat one char = one byte,
  i.e. ASCII content, which covers every property under study — the
  regex patterns and the file-format markers are all ASCII).
* A file whose read fails is modelled with `content = none`.
* Directory walking is external (`walkdir`); the validator and the
  manifest builder receive the list of regular files of the tree, each
  with its path relative to the output root (the manifest's
  `strip_prefix(output_dir)` is thereby already applied).
* The Rust regexes are modelled as decidable matchers over `List Char`,
  with ASCII `\w` ([A-Za-z0-9_]) and ASCII `\s` classes (the contents
  relevant to the claims are ASCII).
-/

namespace SecureBlog

/-! ## Characters and small scanning helpers -/

/-- The double-quote character. -/
def dq : Char := Char.ofNat 34

/-- The single-quote character. -/
def sq : Char := Char.ofNat 39

/-- ASCII `\w`: word character `[A-Za-z0-9_]` (ASCII fragment of the
regex crate's word class; all inputs of interest are ASCII). -/
def isWordC (c : Char) : Bool :=
  c.isAlphanum || c = Char.ofNat 95

/-- ASCII `\s`: whitespace, per the regex crate's ASCII space class. -/
def isSpaceC (c : Char) : Bool :=
  c = ' ' || c = Char.ofNat 9 || c = Char.ofNat 10 || c = Char.ofNat 13 ||
    c = Char.ofNat 11 || c = Char.ofNat 12

/-- Either quote character (the `["']` character class). -/
def isQuoteC (c : Char) : Bool :=
  c = dq || c = sq

/-- `existsSuffix p l` holds when some suffix of `l` (including `l`
itself and `[]`) satisfies `p`: this is `Regex::is_match` for a matcher
`p` that checks a match anchored at the current position. -/
def existsSuffix (p : List Char → Bool) : List Char → Bool
  | [] => p []
  | c :: cs => p (c :: cs) || existsSuffix p cs

/-- Boolean prefix test (structured so that `hasPfx [] l` reduces
definitionally for symbolic `l`). -/
def hasPfx : List Char → List Char → Bool
  | [], _ => true
  | _ :: _, [] => false
  | a :: as, b :: bs => (a == b) && hasPfx as bs

theorem hasPfx_iff_isPfx : ∀ {p l : List Char}, hasPfx p l = true ↔ p <+: l := by
  intro p
  induction p with
  | nil => intro l; simp [hasPfx]
  | cons a as ih =>
    intro l
    cases l with
    | nil => simp [hasPfx]
    | cons b bs =>
      simp only [hasPfx, Bool.and_eq_true, beq_iff_eq, List.cons_prefix_cons]
      exact and_congr Iff.rfl ih

/-! ## SecurityPolicy (main.rs lines 91–112) -/

/-- `SecurityPolicy` from `main.rs`. -/
structure SecurityPolicy where
  no_javascript : Bool
  no_inline_styles : Bool
  no_external : Bool
  max_file_size : Nat

/-- `SecurityPolicy::default()` from `main.rs`: strictest settings. -/
def defaultPolicy : SecurityPolicy :=
  { no_javascript := true
    no_inline_styles := false
    no_external := true
    max_file_size := 10 * 1024 * 1024 }

/-! ## Rust `Path::extension` -/

/-- Rust's `Path::extension()`: the portion of the final path component
after the last `.`; `none` when there is no `.`, or when the file name
begins with `.` and has no other `.`. Matching is verbatim — no case
folding. -/
def extension (path : List Char) : Option (List Char) :=
  let fn := (path.reverse.takeWhile (fun c => c ≠ '/')).reverse
  let r := fn.reverse.takeWhile (fun c => c ≠ '.')
  if r.length + 2 ≤ fn.length then some r.reverse else none

/-! ## The JS pattern catalog (security.rs lines 13–30, `JS_PATTERNS`)

Each Rust regex is modelled by an anchored matcher (match starting at
the head of the list) lifted by `existsSuffix`.  The greedy `\w+\s*=`
and `\s*(` shapes are equivalent to maximal-munch scanning because the
follow-up character (`=` or `(`) is neither a word nor a space
character, so only the maximal run can be part of a match. -/

/-- `<script\b` anchored at the head: the literal, then a word
boundary (end of input or a non-word character). -/
def scriptTagAt (l : List Char) : Bool :=
  hasPfx "<script".toList l &&
    (match l.drop 7 with
     | [] => true
     | c :: _ => !isWordC c)

/-- A literal regex (e.g. `javascript:`) anchored at the head. -/
def litAt (pat : List Char) (l : List Char) : Bool :=
  hasPfx pat l

/-- `lit\b` anchored at the head: literal then word boundary. -/
def litWbAt (pat : List Char) (l : List Char) : Bool :=
  hasPfx pat l &&
    (match l.drop pat.length with
     | [] => true
     | c :: _ => !isWordC c)

/-- `on\w+\s*=` anchored at the head. -/
def onHandlerAt (l : List Char) : Bool :=
  hasPfx "on".toList l &&
    (let rest := l.drop 2
     let w := rest.takeWhile isWordC
     !w.isEmpty &&
       (match (rest.drop w.length).dropWhile isSpaceC with
        | '=' :: _ => true
        | _ => false))

/-- `lit\s*=` anchored at the head (used for `\.innerHTML\s*=`). -/
def litSpEqAt (pat : List Char) (l : List Char) : Bool :=
  hasPfx pat l &&
    (match (l.drop pat.length).dropWhile isSpaceC with
     | '=' :: _ => true
     | _ => false)

/-- `lit\s*\(` anchored at the head (used for `eval\s*\(` etc.). -/
def litSpParenAt (pat : List Char) (l : List Char) : Bool :=
  hasPfx pat l &&
    (match (l.drop pat.length).dropWhile isSpaceC with
     | '(' :: _ => true
     | _ => false)

/-- `lit\s*:` anchored at the head (used for `behavior\s*:`). -/
def litSpColonAt (pat : List Char) (l : List Char) : Bool :=
  hasPfx pat l &&
    (match (l.drop pat.length).dropWhile isSpaceC with
     | ':' :: _ => true
     | _ => false)

/-- The `JS_PATTERNS` catalog of `security.rs`, in source order: each
entry is the regex's source string (as reported by `pattern.as_str()`
in the violation message) together with its matcher. -/
def JS_PATTERNS : List (List Char × (List Char → Bool)) :=
  [ ("<script\\b".toList, existsSuffix scriptTagAt),
    ("javascript:".toList, existsSuffix (litAt "javascript:".toList)),
    ("on\\w+\\s*=".toList, existsSuffix onHandlerAt),
    ("<iframe\\b".toList, existsSuffix (litWbAt "<iframe".toList)),
    ("<object\\b".toList, existsSuffix (litWbAt "<object".toList)),
    ("<embed\\b".toList, existsSuffix (litWbAt "<embed".toList)),
    ("<applet\\b".toList, existsSuffix (litWbAt "<applet".toList)),
    ("eval\\s*\\(".toList, existsSuffix (litSpParenAt "eval".toList)),
    ("Function\\s*\\(".toList, existsSuffix (litSpParenAt "Function".toList)),
    ("setTimeout\\s*\\(".toList, existsSuffix (litSpParenAt "setTimeout".toList)),
    ("setInterval\\s*\\(".toList, existsSuffix (litSpParenAt "setInterval".toList)),
    ("\\.innerHTML\\s*=".toList, existsSuffix (litSpEqAt ".innerHTML".toList)),
    ("document\\.write".toList, existsSuffix (litAt "document.write".toList)),
    ("window\\.location".toList, existsSuffix (litAt "window.location".toList)) ]

/-! ## The inline-style regex `style\s*=\s*["'][^"']*["']` -/

/-- The inline-style regex anchored at the head. -/
def styleAt (l : List Char) : Bool :=
  hasPfx "style".toList l &&
    (match ((l.drop 5).dropWhile isSpaceC) with
     | '=' :: r2 =>
       (match r2.dropWhile isSpaceC with
        | q :: r3 =>
          isQuoteC q && !((r3.dropWhile (fun c => !isQuoteC c)).isEmpty)
        | [] => false)
     | _ => false)

/-- `Regex::is_match` of the inline-style regex. -/
def styleMatch (l : List Char) : Bool :=
  existsSuffix styleAt l

/-! ## The external-resource regex `(src|href)\s*=\s*["'](https?://[^"']+)["']`

`captures_iter` semantics: scan left to right; each match yields the
capture group 2 (the URL); scanning resumes after the end of the match. -/

/-- Strip a literal prefix, returning the remainder. -/
def stripLit (pat l : List Char) : Option (List Char) :=
  if hasPfx pat l then some (l.drop pat.length) else none

/-- The alternation `(src|href)`, leftmost-first. -/
def stripSrcHref (l : List Char) : Option (List Char) :=
  match stripLit "src".toList l with
  | some r => some r
  | none => stripLit "href".toList l

/-- `[^"']+["']` anchored at `l6`, returning `scheme ++ body` (the
capture) and the remainder after the closing quote. -/
def matchUrlBody (scheme l6 : List Char) : Option (List Char × List Char) :=
  if (l6.takeWhile (fun c => !isQuoteC c)).isEmpty then none
  else
    match l6.drop (l6.takeWhile (fun c => !isQuoteC c)).length with
    | q2 :: l7 =>
      if isQuoteC q2 then some (scheme ++ l6.takeWhile (fun c => !isQuoteC c), l7)
      else none
    | [] => none

/-- The `https?://[^"']+["']` tail of the external-resource regex,
anchored at `l3` (just after the opening quote).  The greedy `s?` is
equivalent to: consume `s://` when present, else require `://`. -/
def matchUrl (l3 : List Char) : Option (List Char × List Char) :=
  match stripLit "https://".toList l3 with
  | some l6 => matchUrlBody "https://".toList l6
  | none =>
    match stripLit "http://".toList l3 with
    | some l6 => matchUrlBody "http://".toList l6
    | none => none

/-- Anchored match of the whole external-resource regex
`(src|href)\s*=\s*["'](https?://[^"']+)["']`: on success returns the
captured URL (group 2) and the remainder after the match. -/
def matchExt (l : List Char) : Option (List Char × List Char) :=
  match stripSrcHref l with
  | none => none
  | some l1 =>
    match l1.dropWhile isSpaceC with
    | '=' :: l2 =>
      (match l2.dropWhile isSpaceC with
       | q :: l3 => if isQuoteC q then matchUrl l3 else none
       | [] => none)
    | _ => none

/-- The lengths of `takeWhile` and `dropWhile` sum to the length. -/
theorem lenTWDW (p : Char → Bool) (l : List Char) :
    (l.takeWhile p).length + (l.dropWhile p).length = l.length := by
  have h := congrArg List.length (List.takeWhile_append_dropWhile p l)
  rw [List.length_append] at h
  exact h

theorem stripLit_length {pat l r : List Char} (h : stripLit pat l = some r) :
    r.length + pat.length = l.length ∧ r.length ≤ l.length := by
  unfold stripLit at h
  split at h
  · rename_i hp
    cases h
    have hle : pat.length ≤ l.length := (hasPfx_iff_isPfx.mp hp).length_le
    constructor
    · simp [List.length_drop]; omega
    · simp [List.length_drop]
  · exact absurd h (by simp)

theorem matchUrlBody_shrink {scheme l6 cap rest : List Char}
    (h : matchUrlBody scheme l6 = some (cap, rest)) :
    rest.length < l6.length := by
  unfold matchUrlBody at h
  split at h
  · exact absurd h (by simp)
  · rename_i hne
    split at h
    · rename_i q2 l7 hdrop
      split at h
      · simp only [Option.some.injEq, Prod.mk.injEq] at h
        obtain ⟨-, rfl⟩ := h
        have h7 := congrArg List.length hdrop
        have htw := lenTWDW (fun c => !isQuoteC c) l6
        have hne' : (l6.takeWhile (fun c => !isQuoteC c)).length ≠ 0 := by
          simpa [List.isEmpty_iff, List.length_eq_zero] using hne
        simp [List.length_drop] at h7
        omega
      · exact absurd h (by simp)
    · exact absurd h (by simp)

theorem matchUrl_shrink {l3 cap rest : List Char}
    (h : matchUrl l3 = some (cap, rest)) : rest.length < l3.length := by
  unfold matchUrl at h
  split at h
  · rename_i l6 hs
    have := matchUrlBody_shrink h
    have := (stripLit_length hs).1
    omega
  · split at h
    · rename_i l6 hs
      have := matchUrlBody_shrink h
      have := (stripLit_length hs).1
      omega
    · exact absurd h (by simp)

theorem stripSrcHref_shrink {l r : List Char} (h : stripSrcHref l = some r) :
    r.length + 3 ≤ l.length := by
  unfold stripSrcHref at h
  split at h
  · rename_i hs
    cases h
    have := (stripLit_length hs).1
    simp at this; omega
  · have := (stripLit_length h).1
    simp at this; omega

/-- A successful anchored match consumes at least one character
(termination measure for the scanner). -/
theorem matchExt_shrink {l cap rest : List Char}
    (h : matchExt l = some (cap, rest)) : rest.length < l.length := by
  unfold matchExt at h
  split at h
  · exact absurd h (by simp)
  · rename_i l1 h1
    split at h
    · rename_i l2 h2
      split at h
      · rename_i q l3 h3
        split at h
        · have hu := matchUrl_shrink h
          have hd2 : (l2.dropWhile isSpaceC).length ≤ l2.length := by
            have := lenTWDW isSpaceC l2; omega
          have h3l : l3.length + 1 = (l2.dropWhile isSpaceC).length := by
            rw [h3]; simp
          have hd1 : (l1.dropWhile isSpaceC).length ≤ l1.length := by
            have := lenTWDW isSpaceC l1; omega
          have h2l : l2.length + 1 = (l1.dropWhile isSpaceC).length := by
            rw [h2]; simp
          have := stripSrcHref_shrink h1
          omega
        · exact absurd h (by simp)
      · exact absurd h (by simp)
    · exact absurd h (by simp)

/-- Fuelled left-to-right scan for the external-resource regex: try an
anchored match at each position, resuming after each match.  The fuel
only serves structural recursion; `l.length` is always enough. -/
def extScanF : Nat → List Char → List (List Char)
  | 0, _ => []
  | _ + 1, [] => []
  | fuel + 1, c :: rest =>
    match matchExt (c :: rest) with
    | some (cap, after) => cap :: extScanF fuel after
    | none => extScanF fuel rest

/-- `captures_iter` of the external-resource regex. -/
def extScan (l : List Char) : List (List Char) :=
  extScanF l.length l

theorem extScanF_nil (fuel : Nat) : extScanF fuel [] = [] := by
  cases fuel <;> rfl

theorem extScanF_fuel_irrel (fuel₁ : Nat) :
    ∀ fuel₂ l, l.length ≤ fuel₁ → l.length ≤ fuel₂ →
      extScanF fuel₁ l = extScanF fuel₂ l := by
  induction fuel₁ with
  | zero =>
    intro fuel₂ l h1 _
    have : l = [] := List.length_eq_zero.mp (Nat.le_zero.mp h1)
    subst this
    rw [extScanF_nil, extScanF_nil]
  | succ n ih =>
    intro fuel₂ l h1 h2
    cases l with
    | nil => rw [extScanF_nil, extScanF_nil]
    | cons c rest =>
      cases fuel₂ with
      | zero => exact absurd h2 (by simp)
      | succ m =>
        simp only [extScanF]
        cases hm : matchExt (c :: rest) with
        | some pr =>
          obtain ⟨cap, after⟩ := pr
          have hsh := matchExt_shrink hm
          simp only [List.length_cons] at h1 h2 hsh
          dsimp only
          rw [ih m after (by omega) (by omega)]
        | none =>
          simp only [List.length_cons] at h1 h2
          dsimp only
          exact ih m rest (by omega) (by omega)

theorem extScan_cons_some {c : Char} {rest cap after : List Char}
    (h : matchExt (c :: rest) = some (cap, after)) :
    extScan (c :: rest) = cap :: extScan after := by
  unfold extScan
  simp only [List.length_cons, extScanF, h]
  have hsh := matchExt_shrink h
  simp only [List.length_cons] at hsh
  rw [extScanF_fuel_irrel rest.length after.length after (by omega) (by omega)]

theorem extScan_cons_none {c : Char} {rest : List Char}
    (h : matchExt (c :: rest) = none) :
    extScan (c :: rest) = extScan rest := by
  unfold extScan
  simp only [List.length_cons, extScanF, h]

/-! ## CSS matchers (security.rs lines 111–134) -/

/-- `Regex::is_match` of `javascript:|expression\s*\(|behavior\s*:`. -/
def cssJsMatch (l : List Char) : Bool :=
  existsSuffix (litAt "javascript:".toList) l ||
    existsSuffix (litSpParenAt "expression".toList) l ||
    existsSuffix (litSpColonAt "behavior".toList) l

/-- Body of the `@import` URL: `https?://[^"']+` (no closing
delimiter required), yielding the capture and the remainder. -/
def importBody (scheme rest : List Char) : Option (List Char × List Char) :=
  if (rest.takeWhile (fun c => !isQuoteC c)).isEmpty then none
  else some (scheme ++ rest.takeWhile (fun c => !isQuoteC c),
             rest.dropWhile (fun c => !isQuoteC c))

def matchImportUrl (t : List Char) : Option (List Char × List Char) :=
  match stripLit "https://".toList t with
  | some rest => importBody "https://".toList rest
  | none =>
    match stripLit "http://".toList t with
    | some rest => importBody "http://".toList rest
    | none => none

/-- Anchored match of `@import\s+["']?(https?://[^"']+)`.  The greedy
optional quote is equivalent to consuming a quote when present. -/
def matchImport (l : List Char) : Option (List Char × List Char) :=
  match stripLit "@import".toList l with
  | none => none
  | some r =>
    match r.takeWhile isSpaceC with
    | [] => none
    | _ :: _ =>
      match r.dropWhile isSpaceC with
      | [] => none
      | q :: t =>
        if isQuoteC q then matchImportUrl t else matchImportUrl (q :: t)

theorem importBody_len {scheme rest cap after : List Char}
    (h : importBody scheme rest = some (cap, after)) :
    after.length ≤ rest.length := by
  unfold importBody at h
  split at h
  · exact absurd h (by simp)
  · simp only [Option.some.injEq, Prod.mk.injEq] at h
    obtain ⟨-, rfl⟩ := h
    have := lenTWDW (fun c => !isQuoteC c) rest
    omega

theorem matchImportUrl_len {t cap after : List Char}
    (h : matchImportUrl t = some (cap, after)) : after.length ≤ t.length := by
  unfold matchImportUrl at h
  split at h
  · rename_i rest hs
    have := importBody_len h
    have := (stripLit_length hs).1
    omega
  · split at h
    · rename_i rest hs
      have := importBody_len h
      have := (stripLit_length hs).1
      omega
    · exact absurd h (by simp)

/-- A successful `@import` match consumes at least one character. -/
theorem matchImport_shrink {l cap after : List Char}
    (h : matchImport l = some (cap, after)) : after.length < l.length := by
  unfold matchImport at h
  split at h
  · exact absurd h (by simp)
  · rename_i r hs
    split at h
    · exact absurd h (by simp)
    · split at h
      · exact absurd h (by simp)
      · rename_i q t hqt
        have hrl := (stripLit_length hs).1
        have hql : t.length + 1 = (r.dropWhile isSpaceC).length := by
          rw [hqt]; simp
        have hdl : (r.dropWhile isSpaceC).length ≤ r.length := by
          have := lenTWDW isSpaceC r; omega
        split at h
        · have := matchImportUrl_len h
          simp at hrl
          omega
        · have := matchImportUrl_len h
          simp at this hrl
          omega

/-- Fuelled scan for the `@import` regex (fuel `l.length` suffices). -/
def cssImportScanF : Nat → List Char → List (List Char)
  | 0, _ => []
  | _ + 1, [] => []
  | fuel + 1, c :: rest =>
    match matchImport (c :: rest) with
    | some (cap, after) => cap :: cssImportScanF fuel after
    | none => cssImportScanF fuel rest

/-- `captures_iter` of the `@import` regex. -/
def cssImportScan (l : List Char) : List (List Char) :=
  cssImportScanF l.length l

/-! ## Violation messages (the `format!` strings of security.rs) -/

def jsFileMsg (path : List Char) : List Char :=
  "JavaScript file found: ".toList ++ path

def patMsg (nm path : List Char) : List Char :=
  "JavaScript pattern '".toList ++ nm ++ "' found in ".toList ++ path

def styleMsg (path : List Char) : List Char :=
  "Inline styles found in ".toList ++ path

def extMsg (url path : List Char) : List Char :=
  "External resource '".toList ++ url ++ "' in ".toList ++ path

def cssJsMsg (path : List Char) : List Char :=
  "JavaScript in CSS found in ".toList ++ path

def cssImportMsg (url path : List Char) : List Char :=
  "External CSS import '".toList ++ url ++ "' in ".toList ++ path

def readHtmlErr (path : List Char) : List Char :=
  "Failed to read HTML file: ".toList ++ path

def readCssErr (path : List Char) : List Char :=
  "Failed to read CSS file: ".toList ++ path

/-! ## Per-file validation (security.rs lines 33–134) -/

/-- A regular file of the output tree: path relative to the output
root, and its text content (`none` models a failing
`read_to_string`). -/
structure FileEntry where
  path : List Char
  content : Option (List Char)
deriving DecidableEq

/-- The violations `validate_html_file` pushes for one HTML file whose
read succeeded, in source order: JS-pattern violations (one per
matching catalog rule, catalog order), then the inline-style check,
then the external-resource captures. -/
def htmlViolations (p : SecurityPolicy) (path c : List Char) : List (List Char) :=
  (if p.no_javascript then
      (JS_PATTERNS.filter (fun r => r.2 c)).map (fun r => patMsg r.1 path)
    else []) ++
  (if p.no_inline_styles then
      (if styleMatch c then [styleMsg path] else [])
    else []) ++
  (if p.no_external then (extScan c).map (fun u => extMsg u path) else [])

/-- The violations `validate_css_file` pushes for one CSS file whose
read succeeded. -/
def cssViolations (p : SecurityPolicy) (path c : List Char) : List (List Char) :=
  (if p.no_javascript then (if cssJsMatch c then [cssJsMsg path] else []) else []) ++
  (if p.no_external then
      (cssImportScan c).map (fun u => cssImportMsg u path)
    else [])

/-- One iteration of the `validate_output` walk: classify the file by
its extension (verbatim match against "html"/"htm"/"css"/"js") and
produce its violations; reading an HTML/CSS file may fail, which
aborts the whole run with the wrapped I/O error (the `?` operator). -/
def fileViolations (p : SecurityPolicy) (f : FileEntry) :
    Except (List Char) (List (List Char)) :=
  match extension f.path with
  | some e =>
    if e = "html".toList ∨ e = "htm".toList then
      match f.content with
      | none => .error (readHtmlErr f.path)
      | some c => .ok (htmlViolations p f.path c)
    else if e = "css".toList then
      match f.content with
      | none => .error (readCssErr f.path)
      | some c => .ok (cssViolations p f.path c)
    else if e = "js".toList ∧ p.no_javascript = true then
      .ok [jsFileMsg f.path]
    else .ok []
  | none => .ok []

/-- The accumulation loop of `validate_output`: violations of all the
files in walk order; the first read failure aborts. -/
def collectViolations (p : SecurityPolicy) :
    List FileEntry → Except (List Char) (List (List Char))
  | [] => .ok []
  | f :: fs =>
    match fileViolations p f with
    | .error e => .error e
    | .ok vs =>
      match collectViolations p fs with
      | .error e => .error e
      | .ok rest => .ok (vs ++ rest)

/-- Outcome of `validate_output`: either a wrapped read error
(propagated by `?`) or the final bail carrying the full accumulated
violation report (each violation is logged, then the run bails with
the violation count). -/
inductive ValidationError where
  | ioError (msg : List Char)
  | violations (vs : List (List Char))
deriving DecidableEq

/-- `validate_output` from security.rs: walk every regular file,
accumulate violations, and fail afterwards iff any were found. -/
def validate_output (files : List FileEntry) (p : SecurityPolicy) :
    Except ValidationError Unit :=
  match collectViolations p files with
  | .error e => .error (.ioError e)
  | .ok vs => if vs.isEmpty then .ok () else .error (.violations vs)

/-! ## Theorems about the validator -/

/-- The per-file violation list as a pure function, defined for files
whose read succeeded (content defaulted to `[]` otherwise). -/
def pureFileViolations (p : SecurityPolicy) (f : FileEntry) : List (List Char) :=
  match extension f.path with
  | some e =>
    if e = "html".toList ∨ e = "htm".toList then
      htmlViolations p f.path (f.content.getD [])
    else if e = "css".toList then
      cssViolations p f.path (f.content.getD [])
    else if e = "js".toList ∧ p.no_javascript = true then [jsFileMsg f.path]
    else []
  | none => []

theorem fileViolations_of_readable (p : SecurityPolicy) (f : FileEntry)
    (h : f.content ≠ none) :
    fileViolations p f = .ok (pureFileViolations p f) := by
  obtain ⟨path, content⟩ := f
  cases content with
  | none => exact absurd rfl h
  | some c =>
    cases hext : extension path with
    | none => simp [fileViolations, pureFileViolations, hext]
    | some e =>
      simp only [fileViolations, pureFileViolations, hext, Option.getD_some]
      split_ifs <;> rfl

theorem collectViolations_of_readable (p : SecurityPolicy) (files : List FileEntry)
    (h : ∀ f ∈ files, f.content ≠ none) :
    collectViolations p files = .ok ((files.map (pureFileViolations p)).flatten) := by
  induction files with
  | nil => rfl
  | cons f fs ih =>
    have hf := fileViolations_of_readable p f (h f (by simp))
    have ihs := ih (fun g hg => h g (by simp [hg]))
    simp only [collectViolations, hf, ihs, List.map_cons, List.flatten_cons]

/-- C2: with every file readable, `validate_output` fails exactly when
the accumulated violation list (over all files, in walk order) is
non-empty, and the failure report carries every violation found. -/
theorem validate_output_error_iff (p : SecurityPolicy) (files : List FileEntry)
    (h : ∀ f ∈ files, f.content ≠ none) :
    collectViolations p files = .ok ((files.map (pureFileViolations p)).flatten) ∧
    (validate_output files p = .ok () ↔ (files.map (pureFileViolations p)).flatten = []) ∧
    ((files.map (pureFileViolations p)).flatten ≠ [] →
      validate_output files p =
        .error (.violations ((files.map (pureFileViolations p)).flatten))) := by
  have hc := collectViolations_of_readable p files h
  refine ⟨hc, ?_, ?_⟩
  · simp only [validate_output, hc]
    constructor
    · intro hok
      by_cases hv : ((files.map (pureFileViolations p)).flatten).isEmpty = true
      · exact List.isEmpty_iff.mp hv
      · rw [if_neg hv] at hok
        exact absurd hok (by simp)
    · intro hnil
      rw [if_pos (List.isEmpty_iff.mpr hnil)]
  · intro hne
    simp only [validate_output, hc]
    rw [if_neg (fun hemp => hne (List.isEmpty_iff.mp hemp))]

/-- Witness for `validate_output_error_iff` at a concrete tree. -/
theorem validate_output_error_iff_witness :
    (∀ f ∈ [FileEntry.mk "evil.js".toList (some []),
            FileEntry.mk "ok.txt".toList (some [])], f.content ≠ none) ∧
    (validate_output [FileEntry.mk "evil.js".toList (some []),
        FileEntry.mk "ok.txt".toList (some [])] defaultPolicy = .ok () ↔
      (([FileEntry.mk "evil.js".toList (some []),
         FileEntry.mk "ok.txt".toList (some [])].map
          (pureFileViolations defaultPolicy)).flatten = [])) := by
  have h : ∀ f ∈ [FileEntry.mk "evil.js".toList (some []),
      FileEntry.mk "ok.txt".toList (some [])], f.content ≠ none := by decide
  exact ⟨h, (validate_output_error_iff defaultPolicy _ h).2.1⟩

/-- Per-file cleanliness: no pattern disallowed by the policy matches,
and the file is not a `.js` file while script rejection is on. -/
def cleanFile (p : SecurityPolicy) (f : FileEntry) : Bool :=
  match extension f.path with
  | some e =>
    if e = "html".toList ∨ e = "htm".toList then
      match f.content with
      | none => false
      | some c =>
        (!p.no_javascript || JS_PATTERNS.all (fun r => !(r.2 c))) &&
        (!p.no_inline_styles || !styleMatch c) &&
        (!p.no_external || (extScan c).isEmpty)
    else if e = "css".toList then
      match f.content with
      | none => false
      | some c =>
        (!p.no_javascript || !cssJsMatch c) &&
        (!p.no_external || (cssImportScan c).isEmpty)
    else if e = "js".toList then !p.no_javascript
    else true
  | none => true

theorem htmlViolations_nil (p : SecurityPolicy) (path c : List Char)
    (h1 : p.no_javascript = true → JS_PATTERNS.all (fun r => !(r.2 c)) = true)
    (h2 : p.no_inline_styles = true → styleMatch c = false)
    (h3 : p.no_external = true → extScan c = []) :
    htmlViolations p path c = [] := by
  unfold htmlViolations
  have e1 : (if p.no_javascript then
      (JS_PATTERNS.filter (fun r => r.2 c)).map (fun r => patMsg r.1 path)
    else []) = [] := by
    cases hjs : p.no_javascript with
    | false => simp
    | true =>
      have hfil : JS_PATTERNS.filter (fun r => r.2 c) = [] := by
        rw [List.filter_eq_nil_iff]
        intro r hr
        have := (List.all_eq_true.mp (h1 hjs)) r hr
        simp only [Bool.not_eq_true'] at this
        simp [this]
      simp [hfil]
  have e2 : (if p.no_inline_styles then
      (if styleMatch c then [styleMsg path] else []) else []) = [] := by
    cases hs : p.no_inline_styles with
    | false => simp
    | true => simp [h2 hs]
  have e3 : (if p.no_external then (extScan c).map (fun u => extMsg u path) else [])
      = [] := by
    cases hx : p.no_external with
    | false => simp
    | true => simp [h3 hx]
  rw [e1, e2, e3]
  rfl

theorem cleanFile_no_violation (p : SecurityPolicy) (f : FileEntry)
    (h : cleanFile p f = true) : fileViolations p f = .ok [] := by
  cases hext : extension f.path with
  | none => simp [fileViolations, hext]
  | some e =>
    simp only [cleanFile, hext] at h
    simp only [fileViolations, hext]
    by_cases he : e = "html".toList ∨ e = "htm".toList
    · rw [if_pos he] at h ⊢
      cases hc : f.content with
      | none => simp only [hc] at h; exact absurd h (by simp)
      | some c =>
        simp only [hc] at h ⊢
        simp only [Bool.and_eq_true, Bool.or_eq_true, Bool.not_eq_true'] at h
        obtain ⟨⟨hjs, hst⟩, hex⟩ := h
        have hnil := htmlViolations_nil p f.path c
          (fun hp => by
            rcases hjs with hq | hq
            · exact absurd hp (by simp [hq])
            · exact hq)
          (fun hp => by
            rcases hst with hq | hq
            · exact absurd hp (by simp [hq])
            · exact hq)
          (fun hp => by
            rcases hex with hq | hq
            · exact absurd hp (by simp [hq])
            · exact List.isEmpty_iff.mp hq)
        rw [hnil]
    · rw [if_neg he] at h ⊢
      by_cases hcss : e = "css".toList
      · rw [if_pos hcss] at h ⊢
        cases hc : f.content with
        | none => simp only [hc] at h; exact absurd h (by simp)
        | some c =>
          simp only [hc] at h ⊢
          simp only [Bool.and_eq_true, Bool.or_eq_true, Bool.not_eq_true'] at h
          obtain ⟨hjs, hex⟩ := h
          have e1 : (if p.no_javascript then
              (if cssJsMatch c then [cssJsMsg f.path] else []) else []) = [] := by
            cases hj : p.no_javascript with
            | false => simp
            | true =>
              rcases hjs with hq | hq
              · exact absurd hj (by simp [hq])
              · simp [hq]
          have e2 : (if p.no_external then
              (cssImportScan c).map (fun u => cssImportMsg u f.path) else []) = [] := by
            cases hx : p.no_external with
            | false => simp
            | true =>
              rcases hex with hq | hq
              · exact absurd hx (by simp [hq])
              · simp [List.isEmpty_iff.mp hq]
          simp [cssViolations, e1, e2]
      · rw [if_neg hcss] at h ⊢
        by_cases hj : e = "js".toList ∧ p.no_javascript = true
        · rw [if_pos hj.1] at h
          rw [hj.2] at h
          exact absurd h (by simp)
        · rw [if_neg hj]

theorem collectViolations_clean (p : SecurityPolicy) (files : List FileEntry)
    (h : ∀ f ∈ files, cleanFile p f = true) :
    collectViolations p files = .ok [] := by
  induction files with
  | nil => rfl
  | cons f fs ih =>
    have hf := cleanFile_no_violation p f (h f (by simp))
    have ihs := ih (fun g hg => h g (by simp [hg]))
    simp only [collectViolations, hf, ihs, List.nil_append]

/-- C3: with script rejection on, the mere presence of a `.js` file is
exactly one violation naming that file, recorded without reading the
content (the result is the same for every content, including an
unreadable file); and a tree with zero disallowed patterns and zero
`.js` files records zero violations. -/
theorem js_file_single_violation (p : SecurityPolicy)
    (hjs : p.no_javascript = true) :
    (∀ path content, extension path = some "js".toList →
      fileViolations p ⟨path, content⟩ = .ok [jsFileMsg path]) ∧
    (∀ files, (∀ f ∈ files, cleanFile p f = true) →
      validate_output files p = .ok ()) := by
  constructor
  · intro path content hext
    simp only [fileViolations, hext]
    have h1 : ¬("js".toList = "html".toList ∨ "js".toList = "htm".toList) := by decide
    have h2 : ¬("js".toList = "css".toList) := by decide
    rw [if_neg h1, if_neg h2]
    simp [hjs]
  · intro files h
    simp only [validate_output, collectViolations_clean p files h]
    rfl

/-- Witness for `js_file_single_violation`: the default policy rejects
script, a `.js` file yields its single violation, and a clean tree
passes. -/
theorem js_file_single_violation_witness :
    defaultPolicy.no_javascript = true ∧
    ((∀ path content, extension path = some "js".toList →
        fileViolations defaultPolicy ⟨path, content⟩ = .ok [jsFileMsg path]) ∧
     (∀ files, (∀ f ∈ files, cleanFile defaultPolicy f = true) →
        validate_output files defaultPolicy = .ok ())) :=
  ⟨rfl, js_file_single_violation defaultPolicy rfl⟩

/-- C10: extension classification is verbatim (case-sensitive): a file
whose extension is a case variant of html/htm/css/js — but not equal to
the lowercase string — is not inspected at all and yields no violation
under any policy. -/
theorem case_variant_extension_skipped (p : SecurityPolicy) (path : List Char)
    (content : Option (List Char)) (e : List Char)
    (hext : extension path = some e)
    (hcase : e.map Char.toLower ∈
      ["html".toList, "htm".toList, "css".toList, "js".toList])
    (hne : e ∉ ["html".toList, "htm".toList, "css".toList, "js".toList]) :
    fileViolations p ⟨path, content⟩ = .ok [] := by
  have n1 : e ≠ "html".toList := fun hh => hne (by simp [hh])
  have n2 : e ≠ "htm".toList := fun hh => hne (by simp [hh])
  have n3 : e ≠ "css".toList := fun hh => hne (by simp [hh])
  have n4 : e ≠ "js".toList := fun hh => hne (by simp [hh])
  simp only [fileViolations, hext]
  rw [if_neg (by intro hor; rcases hor with h | h; exact n1 h; exact n2 h)]
  rw [if_neg n3]
  rw [if_neg (fun hand => n4 hand.1)]

/-- Witness for `case_variant_extension_skipped`: an `.HTML` file whose
content is a script tag is not checked. -/
theorem case_variant_extension_skipped_witness :
    extension "page.HTML".toList = some "HTML".toList ∧
    "HTML".toList.map Char.toLower ∈
      ["html".toList, "htm".toList, "css".toList, "js".toList] ∧
    "HTML".toList ∉ ["html".toList, "htm".toList, "css".toList, "js".toList] ∧
    fileViolations defaultPolicy
      ⟨"page.HTML".toList, some "<script>alert(1)</script>".toList⟩ = .ok [] :=
  ⟨by decide, by decide, by decide,
    case_variant_extension_skipped defaultPolicy "page.HTML".toList
      (some "<script>alert(1)</script>".toList) "HTML".toList
      (by decide) (by decide) (by decide)⟩

/-! ## C4: one violation per matching catalog rule; the word boundary -/

/-- Counterexample to the claim that any file containing the literal
text `<script` yields a violation: `<scripty` contains `<script`, yet
the regex `<script\b` requires a word boundary after the literal, and
no other rule matches, so the validator records nothing and the run
succeeds. -/
theorem script_literal_without_boundary_no_violation :
    ("<script".toList <:+: "<scripty".toList) ∧
    fileViolations defaultPolicy
      ⟨"post.html".toList, some "<scripty".toList⟩ = .ok [] ∧
    validate_output [⟨"post.html".toList, some "<scripty".toList⟩]
      defaultPolicy = .ok () :=
  ⟨⟨[], ['y'], by decide⟩, by rfl, by rfl⟩

/-- C4 (amended): with script rejection on, every matching catalog
rule contributes its violation referencing the file, and a file whose
text contains `<script` at a word boundary (followed by a non-word
character or the end of the text) yields at least one violation.
(`<script` immediately followed by a word character matches no rule.) -/
theorem patMsg_mem_htmlViolations (p : SecurityPolicy) (path c : List Char)
    (hjs : p.no_javascript = true) (r : List Char × (List Char → Bool))
    (hr : r ∈ JS_PATTERNS) (hm : r.2 c = true) :
    patMsg r.1 path ∈ htmlViolations p path c := by
  unfold htmlViolations
  apply List.mem_append_left
  apply List.mem_append_left
  rw [if_pos hjs]
  exact List.mem_map_of_mem _ (List.mem_filter.mpr ⟨hr, hm⟩)

theorem html_pattern_violations (p : SecurityPolicy) (path c : List Char)
    (hjs : p.no_javascript = true) :
    (∀ r ∈ JS_PATTERNS, r.2 c = true → patMsg r.1 path ∈ htmlViolations p path c) ∧
    (existsSuffix scriptTagAt c = true → htmlViolations p path c ≠ []) := by
  constructor
  · exact fun r hr hm => patMsg_mem_htmlViolations p path c hjs r hr hm
  · intro hm
    have hr : ("<script\\b".toList, existsSuffix scriptTagAt) ∈ JS_PATTERNS := by
      unfold JS_PATTERNS
      exact List.mem_cons_self _ _
    exact List.ne_nil_of_mem (patMsg_mem_htmlViolations p path c hjs _ hr hm)

/-- Witness for `html_pattern_violations`: a default-policy check of a
file containing a real `<script>` tag. -/
theorem html_pattern_violations_witness :
    defaultPolicy.no_javascript = true ∧
    ((∀ r ∈ JS_PATTERNS, r.2 "<script>alert(1)".toList = true →
        patMsg r.1 "idx.html".toList ∈
          htmlViolations defaultPolicy "idx.html".toList "<script>alert(1)".toList) ∧
     (existsSuffix scriptTagAt "<script>alert(1)".toList = true →
        htmlViolations defaultPolicy "idx.html".toList "<script>alert(1)".toList ≠ [])) :=
  ⟨rfl, html_pattern_violations defaultPolicy "idx.html".toList
    "<script>alert(1)".toList rfl⟩

/-! ## C8: external-resource detection and the same-origin exemption -/

theorem takeWhile_all_stop {p : Char → Bool} {xs : List Char} (y : Char)
    (rest : List Char) (hall : ∀ x ∈ xs, p x = true) (hy : p y = false) :
    (xs ++ y :: rest).takeWhile p = xs := by
  induction xs with
  | nil => simp [List.takeWhile_cons, hy]
  | cons x xs ih =>
    have hx := hall x (by simp)
    have ihh := ih (fun a ha => hall a (by simp [ha]))
    simp [List.takeWhile_cons, hx, ihh]

theorem dropWhile_all_stop {p : Char → Bool} {xs : List Char} (y : Char)
    (rest : List Char) (hall : ∀ x ∈ xs, p x = true) (hy : p y = false) :
    (xs ++ y :: rest).dropWhile p = y :: rest := by
  induction xs with
  | nil => simp [List.dropWhile_cons, hy]
  | cons x xs ih =>
    have hx := hall x (by simp)
    have ihh := ih (fun a ha => hall a (by simp [ha]))
    simp [List.dropWhile_cons, hx, ihh]

/-- The serialized attribute `attr="url"` (double quotes), the shape
the external-resource regex looks for. -/
def attrString (attr url : List Char) : List Char :=
  attr ++ '=' :: dq :: (url ++ [dq])

theorem matchUrlBody_no_quotes (scheme r : List Char) (hr : r ≠ [])
    (hq : ∀ ch ∈ r, isQuoteC ch = false) :
    matchUrlBody scheme (r ++ [dq]) = some (scheme ++ r, []) := by
  have htw : (r ++ [dq]).takeWhile (fun c => !isQuoteC c) = r := by
    have : (r ++ dq :: ([] : List Char)).takeWhile (fun c => !isQuoteC c) = r :=
      takeWhile_all_stop dq [] (fun x hx => by simp [hq x hx]) (by simp [isQuoteC])
    simpa using this
  unfold matchUrlBody
  rw [htw]
  rw [if_neg (by simp [List.isEmpty_iff, hr])]
  rw [List.drop_left]
  simp [isQuoteC]

theorem matchExt_attr_pos (attr scheme r : List Char)
    (hattr : attr = "src".toList ∨ attr = "href".toList)
    (hscheme : scheme = "http://".toList ∨ scheme = "https://".toList)
    (hr : r ≠ []) (hq : ∀ ch ∈ r, isQuoteC ch = false) :
    matchExt (attrString attr (scheme ++ r)) = some (scheme ++ r, []) := by
  rcases hattr with rfl | rfl <;> rcases hscheme with rfl | rfl
  · calc matchExt (attrString "src".toList ("http://".toList ++ r))
        = matchUrlBody "http://".toList (r ++ [dq]) := rfl
      _ = some ("http://".toList ++ r, []) := matchUrlBody_no_quotes _ r hr hq
  · calc matchExt (attrString "src".toList ("https://".toList ++ r))
        = matchUrlBody "https://".toList (r ++ [dq]) := rfl
      _ = some ("https://".toList ++ r, []) := matchUrlBody_no_quotes _ r hr hq
  · calc matchExt (attrString "href".toList ("http://".toList ++ r))
        = matchUrlBody "http://".toList (r ++ [dq]) := rfl
      _ = some ("http://".toList ++ r, []) := matchUrlBody_no_quotes _ r hr hq
  · calc matchExt (attrString "href".toList ("https://".toList ++ r))
        = matchUrlBody "https://".toList (r ++ [dq]) := rfl
      _ = some ("https://".toList ++ r, []) := matchUrlBody_no_quotes _ r hr hq

/-- No quote character in the list is immediately followed by `h`:
then the external-resource regex cannot match anywhere, since a match
needs `["']` immediately followed by `http`. -/
def nqh : List Char → Bool
  | a :: b :: t => (!(isQuoteC a && (b == 'h'))) && nqh (b :: t)
  | _ => true

theorem nqh_tail {a : Char} {t : List Char} (h : nqh (a :: t) = true) :
    nqh t = true := by
  cases t with
  | nil => rfl
  | cons b t' =>
    simp only [nqh, Bool.and_eq_true] at h
    exact h.2

theorem nqh_false_of_suffix {q : Char} {t l : List Char}
    (hs : (q :: 'h' :: t) <:+ l) (hq : isQuoteC q = true) : nqh l = false := by
  induction l with
  | nil =>
    exact absurd (List.eq_nil_of_suffix_nil hs) (by simp)
  | cons a l' ih =>
    rcases List.suffix_cons_iff.mp hs with heq | hsuf
    · obtain ⟨rfl, rfl⟩ : a = q ∧ l' = 'h' :: t := by
        injection heq with h1 h2
        exact ⟨h1.symm, h2.symm⟩
      simp [nqh, hq]
    · have hl' := ih hsuf
      cases l' with
      | nil => exact absurd hl' (by simp [nqh])
      | cons b t' =>
        simp [nqh, hl']

theorem stripLit_suffix {pat l r : List Char} (h : stripLit pat l = some r) :
    r <:+ l := by
  unfold stripLit at h
  split at h
  · cases h
    exact List.drop_suffix _ _
  · exact absurd h (by simp)

theorem stripSrcHref_suffix {l r : List Char} (h : stripSrcHref l = some r) :
    r <:+ l := by
  unfold stripSrcHref at h
  split at h
  · rename_i hs
    cases h
    exact stripLit_suffix hs
  · exact stripLit_suffix h

theorem matchUrl_head {l3 : List Char} {pr : List Char × List Char}
    (h : matchUrl l3 = some pr) : ∃ t, l3 = 'h' :: t := by
  unfold matchUrl at h
  split at h
  · rename_i l6 hs
    unfold stripLit at hs
    split at hs
    · rename_i hp
      obtain ⟨t, ht⟩ := hasPfx_iff_isPfx.mp hp
      exact ⟨"ttps://".toList ++ t, by rw [← ht]; rfl⟩
    · exact absurd hs (by simp)
  · split at h
    · rename_i l6 hs
      unfold stripLit at hs
      split at hs
      · rename_i hp
        obtain ⟨t, ht⟩ := hasPfx_iff_isPfx.mp hp
        exact ⟨"ttp://".toList ++ t, by rw [← ht]; rfl⟩
      · exact absurd hs (by simp)
    · exact absurd h (by simp)

theorem matchExt_none_of_nqh {l : List Char} (h : nqh l = true) :
    matchExt l = none := by
  cases hm : matchExt l with
  | none => rfl
  | some pr =>
    exfalso
    unfold matchExt at hm
    split at hm
    · exact absurd hm (by simp)
    · rename_i l1 h1
      split at hm
      · rename_i l2 h2
        split at hm
        · rename_i q l3 h3
          split at hm
          · rename_i hqt
            obtain ⟨t, rfl⟩ := matchUrl_head hm
            have hsuf : (q :: 'h' :: t) <:+ l := by
              have s3 : (q :: 'h' :: t) <:+ l2 := by
                rw [← h3]
                exact List.dropWhile_suffix _
              have s2 : l2 <:+ l1 := by
                have : ('=' :: l2) <:+ l1 := by
                  rw [← h2]
                  exact List.dropWhile_suffix _
                exact (List.suffix_cons '=' l2).trans this
              exact (s3.trans s2).trans (stripSrcHref_suffix h1)
            rw [nqh_false_of_suffix hsuf hqt] at h
            exact absurd h (by simp)
          · exact absurd hm (by simp)
        · exact absurd hm (by simp)
      · exact absurd hm (by simp)

theorem extScan_nil_of_nqh {l : List Char} (h : nqh l = true) :
    extScan l = [] := by
  induction l with
  | nil => rfl
  | cons c rest ih =>
    rw [extScan_cons_none (matchExt_none_of_nqh h)]
    exact ih (nqh_tail h)

theorem nqh_append_nonquote {a b : List Char}
    (ha : ∀ ch ∈ a, isQuoteC ch = false) (hb : nqh b = true) :
    nqh (a ++ b) = true := by
  induction a with
  | nil => simpa using hb
  | cons x a' ih =>
    have hx := ha x (by simp)
    have hrest := ih (fun ch hc => ha ch (by simp [hc]))
    cases hab : a' ++ b with
    | nil => rw [List.cons_append, hab]; rfl
    | cons y t =>
      rw [List.cons_append, hab]
      simp only [nqh, Bool.and_eq_true]
      exact ⟨by simp [hx], by rw [← hab]; exact hrest⟩

/-- C8: with external-resource rejection on, a quoted `src`/`href`
attribute holding an absolute `http(s)://` URL is captured exactly
once (one violation per offending URL, referencing the file), while a
value starting with `/` or `#` produces no capture at all. -/
theorem external_resource_url_detection (p : SecurityPolicy)
    (hp : p.no_external = true) (attr url path : List Char)
    (hattr : attr = "src".toList ∨ attr = "href".toList)
    (hq : ∀ ch ∈ url, isQuoteC ch = false) :
    ((∃ scheme r, (scheme = "http://".toList ∨ scheme = "https://".toList) ∧
        url = scheme ++ r ∧ r ≠ []) →
      extScan (attrString attr url) = [url] ∧
      extMsg url path ∈ htmlViolations p path (attrString attr url)) ∧
    (∀ c0 rest, url = c0 :: rest → (c0 = '/' ∨ c0 = '#') →
      extScan (attrString attr url) = []) := by
  constructor
  · rintro ⟨scheme, r, hscheme, rfl, hr⟩
    have hqr : ∀ ch ∈ r, isQuoteC ch = false :=
      fun ch hc => hq ch (List.mem_append_right _ hc)
    have hmain := matchExt_attr_pos attr scheme r hattr hscheme hr hqr
    have hscan : extScan (attrString attr (scheme ++ r)) = [scheme ++ r] := by
      rcases hattr with rfl | rfl
      · rw [show attrString "src".toList (scheme ++ r)
            = 's' :: ("rc".toList ++ '=' :: dq :: ((scheme ++ r) ++ [dq])) from rfl]
        rw [extScan_cons_some (by exact hmain)]
        rfl
      · rw [show attrString "href".toList (scheme ++ r)
            = 'h' :: ("ref".toList ++ '=' :: dq :: ((scheme ++ r) ++ [dq])) from rfl]
        rw [extScan_cons_some (by exact hmain)]
        rfl
    refine ⟨hscan, ?_⟩
    unfold htmlViolations
    apply List.mem_append_right
    rw [if_pos hp, hscan]
    simp
  · rintro c0 rest rfl hc0
    apply extScan_nil_of_nqh
    have hattr_nq : ∀ ch ∈ attr ++ ['='], isQuoteC ch = false := by
      intro ch hc
      rcases List.mem_append.mp hc with hca | hce
      · rcases hattr with rfl | rfl
        · revert ch; decide
        · revert ch; decide
      · simp only [List.mem_singleton] at hce
        subst hce
        rfl
    have hb : nqh (dq :: ((c0 :: rest) ++ [dq])) = true := by
      simp only [List.cons_append]
      have hc0h : (c0 == 'h') = false := by
        rcases hc0 with rfl | rfl <;> rfl
      have htail : nqh (c0 :: (rest ++ [dq])) = true := by
        have hnq : ∀ ch ∈ c0 :: rest, isQuoteC ch = false := by
          intro ch hc
          rcases List.mem_cons.mp hc with rfl | hcr
          · rcases hc0 with rfl | rfl <;> rfl
          · exact hq ch (by simp [hcr])
        have : nqh ((c0 :: rest) ++ [dq]) = true :=
          nqh_append_nonquote hnq (by rfl)
        simpa using this
      simp [nqh, hc0h, htail]
    have := nqh_append_nonquote hattr_nq hb
    have hshape : (attr ++ ['=']) ++ (dq :: ((c0 :: rest) ++ [dq]))
        = attrString attr (c0 :: rest) := by
      unfold attrString
      rw [List.append_assoc]
      rfl
    rw [hshape] at this
    exact this

/-- Witness for `external_resource_url_detection` at a concrete
attribute and URL. -/
theorem external_resource_url_detection_witness :
    defaultPolicy.no_external = true ∧
    ("href".toList = "src".toList ∨ "href".toList = "href".toList) ∧
    (∀ ch ∈ "https://evil.example/x".toList, isQuoteC ch = false) ∧
    (((∃ scheme r, (scheme = "http://".toList ∨ scheme = "https://".toList) ∧
        "https://evil.example/x".toList = scheme ++ r ∧ r ≠ []) →
      extScan (attrString "href".toList "https://evil.example/x".toList)
          = ["https://evil.example/x".toList] ∧
      extMsg "https://evil.example/x".toList "a.html".toList ∈
        htmlViolations defaultPolicy "a.html".toList
          (attrString "href".toList "https://evil.example/x".toList)) ∧
    (∀ c0 rest, "https://evil.example/x".toList = c0 :: rest →
      (c0 = '/' ∨ c0 = '#') →
      extScan (attrString "href".toList "https://evil.example/x".toList) = [])) :=
  ⟨rfl, Or.inr rfl, by decide,
    external_resource_url_detection defaultPolicy rfl "href".toList
      "https://evil.example/x".toList "a.html".toList (Or.inr rfl) (by decide)⟩

/-! ## SHA-256 (the digest used by `generate_manifest` and `load_post`)

A direct executable embedding of FIPS 180-4 SHA-256 over byte lists,
with 32-bit words as `Nat` reduced `% 2^32`. -/

/-- Truncate to a 32-bit word. -/
def w32 (n : Nat) : Nat := n % 4294967296

/-- 32-bit rotate right. -/
def rotr32 (n x : Nat) : Nat := w32 ((x >>> n) ||| (x <<< (32 - n)))

def ch32 (e f g : Nat) : Nat := (e &&& f) ^^^ ((e ^^^ 4294967295) &&& g)

def maj32 (a b c : Nat) : Nat := (a &&& b) ^^^ (a &&& c) ^^^ (b &&& c)

def bigS0 (x : Nat) : Nat := rotr32 2 x ^^^ rotr32 13 x ^^^ rotr32 22 x

def bigS1 (x : Nat) : Nat := rotr32 6 x ^^^ rotr32 11 x ^^^ rotr32 25 x

def smallS0 (x : Nat) : Nat := rotr32 7 x ^^^ rotr32 18 x ^^^ (x >>> 3)

def smallS1 (x : Nat) : Nat := rotr32 17 x ^^^ rotr32 19 x ^^^ (x >>> 10)

/-- The 64 SHA-256 round constants. -/
def sha256K : List Nat :=
  [ 1116352408, 1899447441, 3049323471, 3921009573,
    961987163, 1508970993, 2453635748, 2870763221,
    3624381080, 310598401, 607225278, 1426881987,
    1925078388, 2162078206, 2614888103, 3248222580,
    3835390401, 4022224774, 264347078, 604807628,
    770255983, 1249150122, 1555081692, 1996064986,
    2554220882, 2821834349, 2952996808, 3210313671,
    3336571891, 3584528711, 113926993, 338241895,
    666307205, 773529912, 1294757372, 1396182291,
    1695183700, 1986661051, 2177026350, 2456956037,
    2730485921, 2820302411, 3259730800, 3345764771,
    3516065817, 3600352804, 4094571909, 275423344,
    430227734, 506948616, 659060556, 883997877,
    958139571, 1322822218, 1537002063, 1747873779,
    1955562222, 2024104815, 2227730452, 2361852424,
    2428436474, 2756734187, 3204031479, 3329325298 ]

/-- Big-endian 8-byte encoding of the bit length. -/
def lenBytes64 (n : Nat) : List Nat :=
  [56, 48, 40, 32, 24, 16, 8, 0].map (fun s => (n >>> s) % 256)

/-- SHA-256 padding: `0x80`, zeros to 56 mod 64, 8-byte bit length. -/
def padMsg (msg : List Nat) : List Nat :=
  msg ++ 128 :: (List.replicate ((64 + 55 - (msg.length % 64)) % 64) 0
    ++ lenBytes64 (8 * msg.length))

/-- Big-endian 4-byte groups to 32-bit words. -/
def toWords : List Nat → List Nat
  | b0 :: b1 :: b2 :: b3 :: rest =>
    (((b0 * 256 + b1) * 256 + b2) * 256 + b3) :: toWords rest
  | _ => []

/-- Split into 64-byte blocks (fuel = list length is always enough). -/
def chunks64F : Nat → List Nat → List (List Nat)
  | 0, _ => []
  | _ + 1, [] => []
  | fuel + 1, l => l.take 64 :: chunks64F fuel (l.drop 64)

def chunks64 (l : List Nat) : List (List Nat) := chunks64F l.length l

/-- One message-schedule extension step. -/
def schedStep (acc : List Nat) : List Nat :=
  acc ++ [w32 (smallS1 (acc.getD (acc.length - 2) 0) + acc.getD (acc.length - 7) 0 +
    smallS0 (acc.getD (acc.length - 15) 0) + acc.getD (acc.length - 16) 0)]

def schedIter : Nat → List Nat → List Nat
  | 0, acc => acc
  | n + 1, acc => schedIter n (schedStep acc)

/-- Extend the 16 block words to the 64 schedule words. -/
def schedule (block16 : List Nat) : List Nat := schedIter 48 block16

/-- The eight working variables of the compression function. -/
structure H8 where
  a : Nat
  b : Nat
  c : Nat
  d : Nat
  e : Nat
  f : Nat
  g : Nat
  h : Nat
deriving DecidableEq

/-- The SHA-256 initial hash value. -/
def initH8 : H8 :=
  ⟨0x6a09e667, 0xbb67ae85, 0x3c6ef372, 0xa54ff53a,
   0x510e527f, 0x9b05688c, 0x1f83d9ab, 0x5be0cd19⟩

/-- One compression round. -/
def round1 (st : H8) (kw : Nat × Nat) : H8 :=
  let t1 := w32 (st.h + bigS1 st.e + ch32 st.e st.f st.g + kw.1 + kw.2)
  let t2 := w32 (bigS0 st.a + maj32 st.a st.b st.c)
  ⟨w32 (t1 + t2), st.a, st.b, st.c, w32 (st.d + t1), st.e, st.f, st.g⟩

def rounds : List (Nat × Nat) → H8 → H8
  | [], st => st
  | kw :: rest, st => rounds rest (round1 st kw)

/-- Compress one 64-byte block into the running hash. -/
def compress (hs : H8) (block : List Nat) : H8 :=
  let st := rounds (sha256K.zip (schedule (toWords block))) hs
  ⟨w32 (hs.a + st.a), w32 (hs.b + st.b), w32 (hs.c + st.c), w32 (hs.d + st.d),
   w32 (hs.e + st.e), w32 (hs.f + st.f), w32 (hs.g + st.g), w32 (hs.h + st.h)⟩

def sha256H8 (msg : List Nat) : H8 :=
  (chunks64 (padMsg msg)).foldl compress initH8

def hexDigit (n : Nat) : Char :=
  if n < 10 then Char.ofNat (48 + n) else Char.ofNat (87 + n)

/-- Lower-case hex of one 32-bit word (the `{:x}` format). -/
def word8Hex (w : Nat) : List Char :=
  [28, 24, 20, 16, 12, 8, 4, 0].map (fun s => hexDigit ((w >>> s) % 16))

/-- Lower-case hex SHA-256 digest of a byte list, as in
`format!("{:x}", hasher.finalize())`. -/
def sha256Hex (msg : List Nat) : List Char :=
  (let st := sha256H8 msg
   [st.a, st.b, st.c, st.d, st.e, st.f, st.g, st.h]).flatMap word8Hex

/-- The bytes of a text content under the ASCII modelling convention. -/
def contentBytes (c : List Char) : List Nat := c.map Char.toNat

set_option maxRecDepth 100000 in
/-- FIPS 180-4 test vector: sanity check of the SHA-256 embedding. -/
theorem sha256Hex_abc :
    sha256Hex (contentBytes "abc".toList)
      = "ba7816bf8f01cfea414140de5dae2223b00361a396177a9cb410ff61f20015ad".toList := by
  decide

/-! ## The integrity manifest (main.rs lines 246–276, `generate_manifest`)
and the pipeline tail of `main` (main.rs lines 145–159) -/

/-- One manifest record: `{path, size, sha256}`. -/
structure ManifestEntry where
  path : List Char
  size : Nat
  sha256 : List Char
deriving DecidableEq

/-- The manifest document: version, generation timestamp (from
`Utc::now`, supplied externally), generator id, file records. -/
structure Manifest where
  version : List Char
  generated : List Char
  generator : List Char
  files : List ManifestEntry
deriving DecidableEq

/-- The entry-collection loop of `generate_manifest`: for every
regular file (walk order), read the raw bytes (a failing `fs::read`
aborts via `?`), record relative path, byte length and SHA-256 hex. -/
def manifestEntries : List FileEntry → Except (List Char) (List ManifestEntry)
  | [] => .ok []
  | f :: fs =>
    match f.content with
    | none => .error ("failed to read ".toList ++ f.path)
    | some c =>
      match manifestEntries fs with
      | .error e => .error e
      | .ok rest =>
        .ok (⟨f.path, c.length, sha256Hex (contentBytes c)⟩ :: rest)

/-- `generate_manifest` from main.rs: wrap the per-file records with
the version tag, timestamp and generator id. -/
def generate_manifest (now : List Char) (files : List FileEntry) :
    Except (List Char) Manifest :=
  match manifestEntries files with
  | .error e => .error e
  | .ok es => .ok ⟨"1.0".toList, now, "secureblog-rs".toList, es⟩

/-- Stand-in for `serde_json::to_string_pretty` on the manifest (the
claims never inspect this text, only that the file exists). -/
def renderManifest (m : Manifest) : List Char :=
  "\x7b \"version\": \"".toList ++ m.version ++ "\", \"generated\": \"".toList ++
    m.generated ++ "\", \"generator\": \"".toList ++ m.generator ++
    "\", \"files\": ".toList ++
    (m.files.flatMap (fun e =>
      "\x7b \"path\": \"".toList ++ e.path ++ "\", \"sha256\": \"".toList ++
        e.sha256 ++ "\" \x7d ".toList)) ++ "\x7d".toList

/-- The path `integrity.json` (relative to the output root). -/
def integrityPath : List Char := "integrity.json".toList

inductive MainError where
  | manifestIo (msg : List Char)
  | validation (e : ValidationError)
deriving DecidableEq

/-- Result of the pipeline tail: the on-disk output tree when the run
ends, and the run outcome. -/
structure PublishOutcome where
  final_tree : List FileEntry
  result : Except MainError Unit

/-- The tail of `main` (main.rs lines 145–159), exactly in source
order: (1) `generate_manifest` over the generated site tree, (2) write
`integrity.json` into the output tree, (3) `security::validate_output`
over the tree.  The manifest is produced and persisted BEFORE the
validator runs. -/
def publish_stage (site : List FileEntry) (p : SecurityPolicy)
    (now : List Char) : PublishOutcome :=
  match generate_manifest now site with
  | .error e => ⟨site, .error (.manifestIo e)⟩
  | .ok m =>
    match validate_output (site ++ [⟨integrityPath, some (renderManifest m)⟩]) p with
    | .error e =>
      ⟨site ++ [⟨integrityPath, some (renderManifest m)⟩], .error (.validation e)⟩
    | .ok _ =>
      ⟨site ++ [⟨integrityPath, some (renderManifest m)⟩], .ok ()⟩

/-- C7: with every read succeeding, the manifest holds exactly one
entry per regular file, in walk order, whose path is the file's
relative path, whose size is the content's byte length, and whose
digest is the SHA-256 hex of the raw bytes. -/
theorem generate_manifest_entries (now : List Char) (files : List FileEntry)
    (h : ∀ f ∈ files, f.content ≠ none) :
    generate_manifest now files = .ok
      ⟨"1.0".toList, now, "secureblog-rs".toList,
        files.map (fun f =>
          ⟨f.path, (f.content.getD []).length,
            sha256Hex (contentBytes (f.content.getD []))⟩)⟩ ∧
    (files.map (fun f : FileEntry =>
      (⟨f.path, (f.content.getD []).length,
        sha256Hex (contentBytes (f.content.getD []))⟩ : ManifestEntry))).length
      = files.length := by
  have he : manifestEntries files = .ok (files.map (fun f =>
      ⟨f.path, (f.content.getD []).length,
        sha256Hex (contentBytes (f.content.getD []))⟩)) := by
    induction files with
    | nil => rfl
    | cons f fs ih =>
      have hf := h f (by simp)
      cases hc : f.content with
      | none => exact absurd hc hf
      | some c =>
        have ihs := ih (fun g hg => h g (by simp [hg]))
        simp only [manifestEntries, hc, ihs, List.map_cons, Option.getD_some]
  exact ⟨by simp only [generate_manifest, he], by simp⟩

/-- Witness for `generate_manifest_entries` at a one-file tree. -/
theorem generate_manifest_entries_witness :
    (∀ f ∈ [FileEntry.mk "index.html".toList (some "hi".toList)],
      f.content ≠ none) ∧
    generate_manifest "2026-01-01T00:00:00+00:00".toList
        [FileEntry.mk "index.html".toList (some "hi".toList)] = .ok
      ⟨"1.0".toList, "2026-01-01T00:00:00+00:00".toList, "secureblog-rs".toList,
        [FileEntry.mk "index.html".toList (some "hi".toList)].map (fun f =>
          ⟨f.path, (f.content.getD []).length,
            sha256Hex (contentBytes (f.content.getD []))⟩)⟩ :=
  ⟨by decide,
    (generate_manifest_entries "2026-01-01T00:00:00+00:00".toList
      [FileEntry.mk "index.html".toList (some "hi".toList)] (by decide)).1⟩

/-- C1 evidence (the code bug): on a tree holding a lone `.js` file
under the default policy, the run does abort with the enumerated
violation — but `integrity.json` is already part of the final tree:
`main` generates and writes the manifest before `validate_output`
runs, for every timestamp. -/
theorem manifest_written_despite_violations (now : List Char) :
    (publish_stage [⟨"evil.js".toList, some []⟩] defaultPolicy now).result
      = .error (.validation (.violations [jsFileMsg "evil.js".toList])) ∧
    (publish_stage [⟨"evil.js".toList, some []⟩] defaultPolicy now).final_tree.any
      (fun f => f.path = integrityPath) = true :=
  ⟨rfl, rfl⟩

/-! ## `load_post` (main.rs lines 212–244) -/

/-- `PostMeta` from main.rs (the date as a timestamp number). -/
structure PostMeta where
  title : List Char
  date : Int
  tags : List (List Char)
  slug : List Char
  draft : Bool

/-- `Post` from main.rs. -/
structure Post where
  meta : PostMeta
  content : List Char
  html : List Char
  hash : List Char
  source : List Char

/-- `load_post` from main.rs.  Frontmatter parsing and markdown
rendering live in repository modules not present under src/
(`markdown.rs`); they are abstracted as function parameters — the size
check under study runs before either is consulted. -/
def load_post
    (parseFrontmatter : List Char → Except (List Char) (PostMeta × List Char))
    (renderMarkdown : List Char → SecurityPolicy → Except (List Char) (List Char))
    (p : SecurityPolicy) (path : List Char) (content? : Option (List Char)) :
    Except (List Char) Post :=
  match content? with
  | none => .error ("Failed to read post: ".toList ++ path)
  | some content =>
    if content.length > p.max_file_size then
      .error ("Post exceeds maximum size: ".toList ++ path)
    else
      match parseFrontmatter content with
      | .error e => .error e
      | .ok (meta, markdown) =>
        match renderMarkdown markdown p with
        | .error e => .error e
        | .ok html =>
          .ok ⟨meta, markdown, html,
            (if meta.draft then "DRAFT".toList
             else sha256Hex (contentBytes html)), path⟩

/-- C9: a document longer than `max_file_size` makes `load_post` fail
with the size error naming the file's path (the path is a suffix of
the message), and no `Post` is produced; the parser and renderer are
never consulted. -/
theorem load_post_size_limit
    (parseFrontmatter : List Char → Except (List Char) (PostMeta × List Char))
    (renderMarkdown : List Char → SecurityPolicy → Except (List Char) (List Char))
    (p : SecurityPolicy) (path content : List Char)
    (h : content.length > p.max_file_size) :
    load_post parseFrontmatter renderMarkdown p path (some content)
      = .error ("Post exceeds maximum size: ".toList ++ path) ∧
    path <:+ ("Post exceeds maximum size: ".toList ++ path) := by
  constructor
  · simp only [load_post]
    rw [if_pos h]
  · exact ⟨"Post exceeds maximum size: ".toList, rfl⟩

/-- Witness for `load_post_size_limit` at a 3-byte document with a
2-byte limit. -/
theorem load_post_size_limit_witness :
    ("abc".toList.length > (SecurityPolicy.mk true false true 2).max_file_size) ∧
    (load_post (fun _ => .error []) (fun _ _ => .error [])
        (SecurityPolicy.mk true false true 2) "posts/big.md".toList
        (some "abc".toList)
      = .error ("Post exceeds maximum size: ".toList ++ "posts/big.md".toList) ∧
     "posts/big.md".toList <:+
       ("Post exceeds maximum size: ".toList ++ "posts/big.md".toList)) :=
  ⟨by decide,
    load_post_size_limit (fun _ => .error []) (fun _ _ => .error [])
      (SecurityPolicy.mk true false true 2) "posts/big.md".toList "abc".toList
      (by decide)⟩

/-! ## The HTML sanitizer (security.rs lines 136–171, `sanitize_html`)

Modelled from the spec: `sanitize_html` configures and calls the
external `ammonia` crate's `clean`; the cleaning algorithm itself is
not repository code, so it is embedded following spec §4.1 — parse the
input into a tag stream, drop any element whose tag is not in the
allow-list (for `script`/`style`, ammonia's content-dropping default,
the element's content is dropped with it), strip the fixed
event-handler attributes, restrict `href`/`src` to the allowed URL
schemes (relative references are same-document and pass), strip
`style` attributes when the policy requires, and re-serialize with
text and attribute values entity-escaped.  The allow-lists themselves
(tags, removed handler attributes, URL schemes, the conditional
`style` removal) are repository code and are taken verbatim from
security.rs lines 141–168. -/

/-- ASCII lower-casing (HTML names are ASCII case-insensitive). -/
def lowerC (c : Char) : Char :=
  if 65 ≤ c.toNat ∧ c.toNat ≤ 90 then Char.ofNat (c.toNat + 32) else c

/-- Escape of one text character: `& < > "` become entities. -/
def escChar (c : Char) : List Char :=
  if c = '&' then "&amp;".toList
  else if c = '<' then "&lt;".toList
  else if c = '>' then "&gt;".toList
  else if c = dq then "&quot;".toList
  else [c]

def escapeChars : List Char → List Char
  | [] => []
  | c :: cs => escChar c ++ escapeChars cs

/-- Entity decoding for the four entities the serializer emits; any
other `&` is kept as literal text. -/
def decodeEnt : List Char → List Char
  | [] => []
  | c :: cs =>
    if c = '&' then
      if hasPfx "amp;".toList cs then '&' :: decodeEnt (cs.drop 4)
      else if hasPfx "lt;".toList cs then '<' :: decodeEnt (cs.drop 3)
      else if hasPfx "gt;".toList cs then '>' :: decodeEnt (cs.drop 3)
      else if hasPfx "quot;".toList cs then dq :: decodeEnt (cs.drop 5)
      else c :: decodeEnt cs
    else c :: decodeEnt cs
termination_by l => l.length
decreasing_by all_goals simp only [List.length_drop, List.length_cons]; all_goals omega

/-- A token of the tag stream. -/
inductive Tok where
  | text (s : List Char)
  | tagOpen (nm : List Char) (attrs : List (List Char × List Char))
  | tagClose (nm : List Char)
deriving DecidableEq

/-- Tag-name characters (letters and digits). -/
def isNameChar (c : Char) : Bool := c.isAlphanum

/-- Attribute-name characters: anything except the delimiters. -/
def isAttrNameChar (c : Char) : Bool :=
  !(c = ' ' || c = Char.ofNat 9 || c = Char.ofNat 10 || c = Char.ofNat 13 ||
    c = Char.ofNat 11 || c = Char.ofNat 12 || c = '=' || c = dq || c = sq ||
    c = '>' || c = '/')

/-- Attribute parsing inside a tag (fuel-structural; fuel one more
than the character count always suffices since every step consumes at
least one character). -/
def parseAttrs : Nat → List Char → List (List Char × List Char)
  | 0, _ => []
  | fuel + 1, l =>
    let l1 := l.dropWhile isSpaceC
    match l1 with
    | [] => []
    | _ :: _ =>
      let nmRaw := l1.takeWhile isAttrNameChar
      let nm := nmRaw.map lowerC
      let l2 := l1.drop nmRaw.length
      match l2.dropWhile isSpaceC with
      | '=' :: l3 =>
        let l4 := l3.dropWhile isSpaceC
        match l4 with
        | [] => [(nm, [])]
        | q :: t =>
          if isQuoteC q then
            (nm, decodeEnt (t.takeWhile (fun c => c ≠ q))) ::
              parseAttrs fuel ((t.dropWhile (fun c => c ≠ q)).drop 1)
          else
            (nm, decodeEnt (l4.takeWhile (fun c => !isSpaceC c))) ::
              parseAttrs fuel (l4.dropWhile (fun c => !isSpaceC c))
      | _ =>
        if nmRaw.isEmpty then parseAttrs fuel (l1.drop 1)
        else (nm, []) :: parseAttrs fuel l2

/-- Parse the inside of one `<...>` group. -/
def lexTag (inner : List Char) : Tok :=
  if inner.headD ' ' = '/' then
    .tagClose (((inner.drop 1).takeWhile isNameChar).map lowerC)
  else
    .tagOpen ((inner.takeWhile isNameChar).map lowerC)
      (parseAttrs (inner.length + 1) (inner.drop (inner.takeWhile isNameChar).length))

/-- Fuelled tokenizer: text runs up to `<`, tag groups up to `>`;
a `<` with no closing `>` degrades to text. -/
def lexF : Nat → List Char → List Tok
  | 0, _ => []
  | _ + 1, [] => []
  | fuel + 1, c :: cs =>
    if c = '<' then
      match cs.dropWhile (fun x => x ≠ '>') with
      | [] => [.text (decodeEnt (c :: cs))]
      | _ :: after => lexTag (cs.takeWhile (fun x => x ≠ '>')) :: lexF fuel after
    else
      .text (decodeEnt ((c :: cs).takeWhile (fun x => x ≠ '<'))) ::
        lexF fuel ((c :: cs).dropWhile (fun x => x ≠ '<'))

def lex (l : List Char) : List Tok := lexF (l.length + 1) l

/-- The tag allow-list configured in security.rs lines 141–151. -/
def allowedTags : List (List Char) :=
  ["p", "br", "strong", "em", "u", "i", "b",
   "h1", "h2", "h3", "h4", "h5", "h6",
   "ul", "ol", "li", "dl", "dt", "dd",
   "a", "img", "blockquote", "code", "pre",
   "table", "thead", "tbody", "tr", "th", "td",
   "hr", "div", "span", "article", "section",
   "header", "footer", "nav", "aside", "main"].map String.toList

/-- The event-handler attributes removed in security.rs lines 154–158. -/
def handlerAttrs : List (List Char) :=
  ["onclick", "onload", "onerror", "onmouseover", "onmouseout",
   "onkeydown", "onkeyup", "onfocus", "onblur", "onchange",
   "onsubmit", "ondblclick", "onmouseenter", "onmouseleave"].map String.toList

/-- The URL schemes allowed in security.rs lines 161–163 (the listed
`#` entry denotes in-document fragment references, which are relative
and therefore scheme-less). -/
def allowedSchemes : List (List Char) :=
  ["http", "https", "mailto"].map String.toList

/-- Scheme admissibility of an `href`/`src` value: relative references
(no scheme before any `/`, `?` or `#`) pass; otherwise the scheme must
be allow-listed. -/
def schemeOk (v : List Char) : Bool :=
  match v.drop (v.takeWhile
      (fun c => c ≠ ':' && c ≠ '/' && c ≠ '?' && c ≠ '#')).length with
  | ':' :: _ =>
    allowedSchemes.contains
      ((v.takeWhile (fun c => c ≠ ':' && c ≠ '/' && c ≠ '?' && c ≠ '#')).map lowerC)
  | _ => true

/-- Lower-case letters, digits and hyphen: the attribute names an
allow-list sanitizer retains. -/
def isLowerAlnumHyphen (c : Char) : Bool :=
  (97 ≤ c.toNat && c.toNat ≤ 122) || (48 ≤ c.toNat && c.toNat ≤ 57) || c = '-'

/-- Whether one attribute survives sanitization. -/
def keepAttr (p : SecurityPolicy) (av : List Char × List Char) : Bool :=
  !av.1.isEmpty && av.1.all isLowerAlnumHyphen &&
    !(handlerAttrs.contains av.1) &&
    (!p.no_inline_styles || !(av.1 == "style".toList)) &&
    (!(av.1 == "href".toList || av.1 == "src".toList) || schemeOk av.2)

def filterAttrs (p : SecurityPolicy)
    (attrs : List (List Char × List Char)) : List (List Char × List Char) :=
  attrs.filter (keepAttr p)

/-- Elements whose text content is dropped along with them (ammonia's
`clean_content_tags` default). -/
def dropContentTags : List (List Char) := ["script", "style"].map String.toList

/-- The filtering pass over the token stream; the `option` state names
the content-dropped element currently being skipped. -/
def sanLoop (p : SecurityPolicy) : Option (List Char) → List Tok → List Tok
  | _, [] => []
  | some n, .tagClose m :: ts =>
    if m = n then sanLoop p none ts else sanLoop p (some n) ts
  | some n, .text _ :: ts => sanLoop p (some n) ts
  | some n, .tagOpen _ _ :: ts => sanLoop p (some n) ts
  | none, .text s :: ts => .text s :: sanLoop p none ts
  | none, .tagOpen n attrs :: ts =>
    if n ∈ allowedTags then .tagOpen n (filterAttrs p attrs) :: sanLoop p none ts
    else if n ∈ dropContentTags then sanLoop p (some n) ts
    else sanLoop p none ts
  | none, .tagClose n :: ts =>
    if n ∈ allowedTags then .tagClose n :: sanLoop p none ts
    else sanLoop p none ts

/-- Merge a text run onto a token list. -/
def consText (s : List Char) (ts : List Tok) : List Tok :=
  if s.isEmpty then ts
  else
    match ts with
    | .text t :: us => .text (s ++ t) :: us
    | _ => .text s :: ts

/-- Normalization: merge adjacent text tokens, drop empty ones. -/
def mt : List Tok → List Tok
  | [] => []
  | .text s :: ts => consText s (mt ts)
  | .tagOpen n attrs :: ts => .tagOpen n attrs :: mt ts
  | .tagClose n :: ts => .tagClose n :: mt ts

def serAttrs : List (List Char × List Char) → List Char
  | [] => []
  | (a, v) :: rest => ' ' :: (a ++ '=' :: dq :: (escapeChars v ++ dq :: serAttrs rest))

def serTok : Tok → List Char
  | .text s => escapeChars s
  | .tagOpen n attrs => '<' :: (n ++ (serAttrs attrs ++ ['>']))
  | .tagClose n => '<' :: '/' :: (n ++ ['>'])

def serToks : List Tok → List Char
  | [] => []
  | t :: ts => serTok t ++ serToks ts

/-- `sanitize_html` from security.rs: ammonia `clean` under the
source's configuration, as modelled above.  Total by construction. -/
def sanitize_html (html : String) (p : SecurityPolicy) : String :=
  String.mk (serToks (mt (sanLoop p none (lex html.data))))

/-! ## C5: sanitized output never contains `<script` (case-insensitive) -/

theorem toNat_ofNat_valid (n : Nat) (h : n.isValidChar) :
    (Char.ofNat n).toNat = n := by
  unfold Char.ofNat
  rw [dif_pos h]
  rfl

theorem lowerC_toNat (c : Char) :
    (lowerC c).toNat =
      if 65 ≤ c.toNat ∧ c.toNat ≤ 90 then c.toNat + 32 else c.toNat := by
  unfold lowerC
  split
  · rename_i hc
    exact toNat_ofNat_valid _ (Or.inl (by omega))
  · rfl

theorem char_eq_of_toNat_eq {c d : Char} (h : c.toNat = d.toNat) : c = d := by
  have h1 : Char.ofNat c.toNat = Char.ofNat d.toNat := by rw [h]
  rwa [Char.ofNat_toNat, Char.ofNat_toNat] at h1

theorem lowerC_eq_lt_iff (x : Char) : lowerC x = '<' ↔ x = '<' := by
  constructor
  · intro h
    have ht := congrArg Char.toNat h
    rw [lowerC_toNat] at ht
    have hlt : ('<').toNat = 60 := rfl
    split at ht
    · omega
    · exact char_eq_of_toNat_eq (by omega)
  · rintro rfl
    decide

/-- Case-insensitive `<script` at the head (first 7 characters). -/
def lowseq (l : List Char) : Bool :=
  decide (((l.take 7).map lowerC) = "<script".toList)

/-- Case-insensitive `<script` anywhere. -/
def containsScr : List Char → Bool
  | [] => false
  | c :: cs => lowseq (c :: cs) || containsScr cs

theorem scriptChars :
    "<script".toList = ['<', 's', 'c', 'r', 'i', 'p', 't'] := rfl

theorem lowseq_cons_ne_lt {x : Char} {l : List Char} (hx : x ≠ '<') :
    lowseq (x :: l) = false := by
  apply decide_eq_false
  intro h
  rw [scriptChars] at h
  simp only [List.take_succ_cons, List.map_cons] at h
  have hh : lowerC x = '<' := by
    have := congrArg (fun t => t.headD ' ') h
    simpa using this
  exact hx ((lowerC_eq_lt_iff x).mp hh)

theorem containsScr_skip {a b : List Char} (ha : ∀ x ∈ a, x ≠ '<') :
    containsScr (a ++ b) = containsScr b := by
  induction a with
  | nil => rfl
  | cons x a' ih =>
    simp only [List.cons_append, containsScr,
      lowseq_cons_ne_lt (ha x (by simp)), Bool.false_or]
    exact ih (fun y hy => ha y (by simp [hy]))

/-- A tag name that cannot begin `script...`: mismatch within the
first two characters (no allowed tag is a one-letter prefix of
`script`, and none starts with `s`-then-`c`). -/
def nameOkScr : List Char → Bool
  | [] => false
  | [c] => !(lowerC c == 's')
  | c1 :: c2 :: _ => !(lowerC c1 == 's') || !(lowerC c2 == 'c')

theorem lowseq_open_false {n rest : List Char} (hn : nameOkScr n = true) :
    lowseq ('<' :: (n ++ rest)) = false := by
  cases n with
  | nil => exact absurd hn (by simp [nameOkScr])
  | cons c1 n' =>
    cases n' with
    | nil =>
      simp only [nameOkScr, Bool.not_eq_true', beq_eq_false_iff_ne, ne_eq] at hn
      apply decide_eq_false
      intro h
      rw [scriptChars] at h
      simp only [List.cons_append, List.nil_append, List.take_succ_cons,
        List.map_cons] at h
      have h1 : lowerC c1 = 's' := by
        have := congrArg (fun t => (t.drop 1).headD ' ') h
        simpa using this
      exact hn h1
    | cons c2 n'' =>
      simp only [nameOkScr, Bool.or_eq_true, Bool.not_eq_true',
        beq_eq_false_iff_ne, ne_eq] at hn
      apply decide_eq_false
      intro h
      rw [scriptChars] at h
      simp only [List.cons_append, List.take_succ_cons, List.map_cons] at h
      rcases hn with hn | hn
      · have h1 : lowerC c1 = 's' := by
          have := congrArg (fun t => (t.drop 1).headD ' ') h
          simpa using this
        exact hn h1
      · have h2 : lowerC c2 = 'c' := by
          have := congrArg (fun t => (t.drop 2).headD ' ') h
          simpa using this
        exact hn h2

theorem lowseq_close_false (l : List Char) :
    lowseq ('<' :: '/' :: l) = false := by
  apply decide_eq_false
  intro h
  rw [scriptChars] at h
  simp only [List.take_succ_cons, List.map_cons] at h
  have h1 : lowerC '/' = 's' := by
    have := congrArg (fun t => (t.drop 1).headD ' ') h
    simpa using this
  exact absurd h1 (by decide)

/-- Structural safety of a token for serialization. -/
def TokSafe : Tok → Prop
  | .text _ => True
  | .tagOpen n attrs =>
    n ∈ allowedTags ∧
      ∀ av ∈ attrs, (av : List Char × List Char).1.all isLowerAlnumHyphen = true
  | .tagClose n => n ∈ allowedTags

def ToksSafe (ts : List Tok) : Prop := ∀ t ∈ ts, TokSafe t

theorem keepAttr_name_chars {p : SecurityPolicy} {av : List Char × List Char}
    (h : keepAttr p av = true) : av.1.all isLowerAlnumHyphen = true := by
  unfold keepAttr at h
  simp only [Bool.and_eq_true] at h
  exact h.1.1.1.2

theorem sanLoop_safe (p : SecurityPolicy) :
    ∀ (mode : Option (List Char)) (ts : List Tok), ToksSafe (sanLoop p mode ts) := by
  intro mode ts
  induction ts generalizing mode with
  | nil => intro t ht; cases mode <;> exact absurd ht (by simp [sanLoop])
  | cons t0 ts ih =>
    cases mode with
    | some n =>
      cases t0 with
      | text s => exact ih (some n)
      | tagOpen m attrs => exact ih (some n)
      | tagClose m =>
        by_cases hm : m = n
        · simpa [sanLoop, hm] using ih none
        · simpa [sanLoop, hm] using ih (some n)
    | none =>
      cases t0 with
      | text s =>
        intro t ht
        simp only [sanLoop, List.mem_cons] at ht
        rcases ht with rfl | ht
        · trivial
        · exact ih none t ht
      | tagOpen n attrs =>
        by_cases ha : n ∈ allowedTags
        · intro t ht
          simp only [sanLoop, if_pos ha, List.mem_cons] at ht
          rcases ht with rfl | ht
          · refine ⟨ha, ?_⟩
            intro av hav
            exact keepAttr_name_chars (List.of_mem_filter hav)
          · exact ih none t ht
        · by_cases hd : n ∈ dropContentTags
          · simpa [sanLoop, if_neg ha, if_pos hd] using ih (some n)
          · simpa [sanLoop, if_neg ha, if_neg hd] using ih none
      | tagClose n =>
        by_cases ha : n ∈ allowedTags
        · intro t ht
          simp only [sanLoop, if_pos ha, List.mem_cons] at ht
          rcases ht with rfl | ht
          · exact ha
          · exact ih none t ht
        · simpa [sanLoop, if_neg ha] using ih none

theorem consText_safe {s : List Char} {ts : List Tok} (h : ToksSafe ts) :
    ToksSafe (consText s ts) := by
  unfold consText
  split
  · exact h
  · cases ts with
    | nil =>
      show ToksSafe [.text s]
      intro t ht
      rcases List.mem_cons.mp ht with rfl | hm
      · trivial
      · exact absurd hm (by simp)
    | cons t0 us =>
      cases t0 with
      | text t =>
        show ToksSafe (.text (s ++ t) :: us)
        intro tok htok
        rcases List.mem_cons.mp htok with rfl | hm
        · trivial
        · exact h tok (by simp [hm])
      | tagOpen n attrs =>
        show ToksSafe (.text s :: .tagOpen n attrs :: us)
        intro tok htok
        rcases List.mem_cons.mp htok with rfl | hm
        · trivial
        · exact h tok hm
      | tagClose n =>
        show ToksSafe (.text s :: .tagClose n :: us)
        intro tok htok
        rcases List.mem_cons.mp htok with rfl | hm
        · trivial
        · exact h tok hm

theorem mt_safe {ts : List Tok} (h : ToksSafe ts) : ToksSafe (mt ts) := by
  induction ts with
  | nil => exact h
  | cons t0 ts ih =>
    have hts : ToksSafe ts := fun t ht => h t (by simp [ht])
    cases t0 with
    | text s => exact consText_safe (ih hts)
    | tagOpen n attrs =>
      intro t ht
      rcases List.mem_cons.mp ht with rfl | hm
      · exact h _ (by simp)
      · exact ih hts t hm
    | tagClose n =>
      intro t ht
      rcases List.mem_cons.mp ht with rfl | hm
      · exact h _ (by simp)
      · exact ih hts t hm

theorem escChar_no_lt (c : Char) : ∀ x ∈ escChar c, x ≠ '<' := by
  unfold escChar
  split
  · decide
  · split
    · decide
    · split
      · decide
      · split
        · decide
        · rename_i h1 h2 h3 h4
          intro x hx
          simp only [List.mem_singleton] at hx
          subst hx
          exact h2

theorem escapeChars_no_lt (s : List Char) : ∀ x ∈ escapeChars s, x ≠ '<' := by
  induction s with
  | nil => simp [escapeChars]
  | cons c cs ih =>
    intro x hx
    simp only [escapeChars, List.mem_append] at hx
    rcases hx with hx | hx
    · exact escChar_no_lt c x hx
    · exact ih x hx

theorem isLowerAlnumHyphen_ne_lt {c : Char} (h : isLowerAlnumHyphen c = true) :
    c ≠ '<' := by
  intro hc
  subst hc
  exact absurd h (by decide)

theorem serAttrs_no_lt {attrs : List (List Char × List Char)}
    (h : ∀ av ∈ attrs, (av : List Char × List Char).1.all isLowerAlnumHyphen = true) :
    ∀ x ∈ serAttrs attrs, x ≠ '<' := by
  induction attrs with
  | nil => simp [serAttrs]
  | cons av rest ih =>
    obtain ⟨a, v⟩ := av
    intro x hx
    rw [show serAttrs ((a, v) :: rest)
        = ' ' :: (a ++ '=' :: dq :: (escapeChars v ++ dq :: serAttrs rest))
      from rfl] at hx
    rcases List.mem_cons.mp hx with rfl | hx
    · decide
    rcases List.mem_append.mp hx with hx | hx
    · exact isLowerAlnumHyphen_ne_lt (List.all_eq_true.mp (h (a, v) (by simp)) x hx)
    rcases List.mem_cons.mp hx with rfl | hx
    · decide
    rcases List.mem_cons.mp hx with rfl | hx
    · decide
    rcases List.mem_append.mp hx with hx | hx
    · exact escapeChars_no_lt v x hx
    rcases List.mem_cons.mp hx with rfl | hx
    · decide
    exact ih (fun av2 h2 => h av2 (by simp [h2])) x hx

theorem allowedTags_nameOk : ∀ n ∈ allowedTags, nameOkScr n = true := by decide

theorem allowedTags_no_lt : ∀ n ∈ allowedTags, ∀ x ∈ n, x ≠ '<' := by decide

theorem containsScr_open_tag (n inner R : List Char) (hn : nameOkScr n = true)
    (hnol : ∀ x ∈ n, x ≠ '<') (hinner : ∀ x ∈ inner, x ≠ '<') :
    containsScr (('<' :: (n ++ inner)) ++ R) = containsScr R := by
  rw [List.cons_append]
  have hassoc : (n ++ inner) ++ R = n ++ (inner ++ R) := List.append_assoc n inner R
  rw [show containsScr ('<' :: ((n ++ inner) ++ R))
      = (lowseq ('<' :: ((n ++ inner) ++ R)) ||
          containsScr ((n ++ inner) ++ R)) from rfl]
  rw [hassoc, lowseq_open_false hn, Bool.false_or,
    containsScr_skip hnol, containsScr_skip hinner]

theorem containsScr_close_tag (n R : List Char) (hnol : ∀ x ∈ n, x ≠ '<') :
    containsScr (('<' :: '/' :: (n ++ ['>'])) ++ R) = containsScr R := by
  rw [List.cons_append, List.cons_append]
  rw [show containsScr ('<' :: '/' :: ((n ++ ['>']) ++ R))
      = (lowseq ('<' :: '/' :: ((n ++ ['>']) ++ R)) ||
          (lowseq ('/' :: ((n ++ ['>']) ++ R)) ||
            containsScr ((n ++ ['>']) ++ R))) from rfl]
  rw [lowseq_close_false, lowseq_cons_ne_lt (by decide), Bool.false_or,
    Bool.false_or]
  apply containsScr_skip
  intro x hx
  rcases List.mem_append.mp hx with hx | hx
  · exact hnol x hx
  · rcases List.mem_singleton.mp hx with rfl
    decide

theorem noScr_ser {ts : List Tok} (h : ToksSafe ts) :
    containsScr (serToks ts) = false := by
  induction ts with
  | nil => rfl
  | cons t0 ts ih =>
    have hts : ToksSafe ts := fun t ht => h t (by simp [ht])
    have iht := ih hts
    cases t0 with
    | text s =>
      show containsScr (escapeChars s ++ serToks ts) = false
      rw [containsScr_skip (escapeChars_no_lt s)]
      exact iht
    | tagOpen n attrs =>
      obtain ⟨hn, hattrs⟩ := h (.tagOpen n attrs) (by simp)
      show containsScr (('<' :: (n ++ (serAttrs attrs ++ ['>']))) ++ serToks ts)
        = false
      rw [containsScr_open_tag n (serAttrs attrs ++ ['>']) (serToks ts)
        (allowedTags_nameOk n hn) (allowedTags_no_lt n hn) ?hin]
      case hin =>
        intro x hx
        rcases List.mem_append.mp hx with hx | hx
        · exact serAttrs_no_lt hattrs x hx
        · rcases List.mem_singleton.mp hx with rfl
          decide
      exact iht
    | tagClose n =>
      have hn := h (.tagClose n) (by simp)
      show containsScr (('<' :: '/' :: (n ++ ['>'])) ++ serToks ts) = false
      rw [containsScr_close_tag n (serToks ts) (allowedTags_no_lt n hn)]
      exact iht

theorem infix_of_containsScr_false {l : List Char} (h : containsScr l = false) :
    ¬ ("<script".toList <:+: l.map lowerC) := by
  induction l with
  | nil =>
    intro hinf
    rw [List.map_nil] at hinf
    have := List.infix_nil.mp hinf
    rw [scriptChars] at this
    exact absurd this (by simp)
  | cons c cs ih =>
    simp only [containsScr, Bool.or_eq_false_iff] at h
    obtain ⟨hlow, hrest⟩ := h
    intro hinf
    simp only [List.map_cons] at hinf
    rcases List.infix_cons_iff.mp hinf with hpre | hinf'
    · have htake : "<script".toList
          = (lowerC c :: cs.map lowerC).take ("<script".toList).length :=
        List.prefix_iff_eq_take.mp hpre
      have hlen : ("<script".toList).length = 7 := rfl
      have hzero : lowseq (c :: cs) = true := by
        apply decide_eq_true
        have hmt : (c :: cs).take 7 = c :: cs.take 6 := by
          simp [List.take_succ_cons]
        rw [hmt]
        simp only [List.map_cons]
        rw [htake, hlen]
        simp [List.take_succ_cons, List.map_take]
      rw [hzero] at hlow
      exact absurd hlow (by simp)
    · exact ih hrest hinf'

/-- C5: for every input string and every policy, the sanitized output
never contains the substring `<script`, compared case-insensitively;
and the sanitizer is total — it returns a sanitized string for every
input, including adversarial or malformed HTML. -/
theorem sanitize_html_no_script (html : String) (p : SecurityPolicy) :
    ¬ ("<script".toList <:+: ((sanitize_html html p).toList.map lowerC)) ∧
    ∃ out, sanitize_html html p = out := by
  refine ⟨?_, ⟨_, rfl⟩⟩
  have hsafe : ToksSafe (mt (sanLoop p none (lex html.data))) :=
    mt_safe (sanLoop_safe p none (lex html.data))
  have hno := noScr_ser hsafe
  have hlist : (sanitize_html html p).toList
      = serToks (mt (sanLoop p none (lex html.data))) := rfl
  rw [hlist]
  exact infix_of_containsScr_false hno

/-! ## C6: idempotence of the sanitizer.

The serialized output of one sanitizer pass re-tokenizes to exactly
the same token stream (a round trip through `serToks` and `lex`), and
the filtering pass is a fixed point on already-filtered streams. -/

theorem takeWhile_all {p : Char → Bool} {l : List Char}
    (h : ∀ x ∈ l, p x = true) : l.takeWhile p = l := by
  induction l with
  | nil => rfl
  | cons c cs ih =>
    have hc := h c (by simp)
    have ihh := ih (fun x hx => h x (by simp [hx]))
    simp [List.takeWhile_cons, hc, ihh]

theorem dropWhile_all {p : Char → Bool} {l : List Char}
    (h : ∀ x ∈ l, p x = true) : l.dropWhile p = [] := by
  induction l with
  | nil => rfl
  | cons c cs ih =>
    have hc := h c (by simp)
    have ihh := ih (fun x hx => h x (by simp [hx]))
    simp [List.dropWhile_cons, hc, ihh]

theorem map_self {f : Char → Char} {l : List Char}
    (h : ∀ x ∈ l, f x = x) : l.map f = l := by
  induction l with
  | nil => rfl
  | cons c cs ih =>
    have hc := h c (by simp)
    have ihh := ih (fun x hx => h x (by simp [hx]))
    simp [List.map_cons, hc, ihh]

theorem isLAH_bounds {c : Char} (h : isLowerAlnumHyphen c = true) :
    (97 ≤ c.toNat ∧ c.toNat ≤ 122) ∨ (48 ≤ c.toNat ∧ c.toNat ≤ 57) ∨
      c.toNat = 45 := by
  simp only [isLowerAlnumHyphen, Bool.or_eq_true, Bool.and_eq_true,
    decide_eq_true_eq] at h
  rcases h with (h | h) | h
  · exact Or.inl h
  · exact Or.inr (Or.inl h)
  · subst h
    exact Or.inr (Or.inr rfl)

theorem isLAH_not_space {c : Char} (h : isLowerAlnumHyphen c = true) :
    isSpaceC c = false := by
  have hb := isLAH_bounds h
  simp only [isSpaceC, Bool.or_eq_false_iff, decide_eq_false_iff_not]
  repeat' apply And.intro
  all_goals (intro hc; subst hc; revert hb; decide)

theorem isLAH_attrNameChar {c : Char} (h : isLowerAlnumHyphen c = true) :
    isAttrNameChar c = true := by
  have hb := isLAH_bounds h
  simp only [isAttrNameChar, Bool.not_eq_true']
  simp only [Bool.or_eq_false_iff, decide_eq_false_iff_not]
  repeat' apply And.intro
  all_goals (intro hc; subst hc; revert hb; decide)

theorem isLAH_lowerC_fix {c : Char} (h : isLowerAlnumHyphen c = true) :
    lowerC c = c := by
  have hb := isLAH_bounds h
  unfold lowerC
  rw [if_neg]
  intro hc
  omega

theorem isLAH_ne_gt {c : Char} (h : isLowerAlnumHyphen c = true) : c ≠ '>' := by
  intro hc
  subst hc
  exact absurd h (by decide)

theorem isLAH_ne_dq {c : Char} (h : isLowerAlnumHyphen c = true) : c ≠ dq := by
  intro hc
  have hb := isLAH_bounds h
  rw [hc] at hb
  revert hb
  decide

theorem escChar_ne_nil (c : Char) : escChar c ≠ [] := by
  unfold escChar
  split
  · decide
  · split
    · decide
    · split
      · decide
      · split
        · decide
        · simp

theorem escapeChars_ne_nil {s : List Char} (h : s ≠ []) :
    escapeChars s ≠ [] := by
  cases s with
  | nil => exact absurd rfl h
  | cons c cs =>
    show escChar c ++ escapeChars cs ≠ []
    simp [escChar_ne_nil c]

theorem escChar_no_gt (c : Char) : ∀ x ∈ escChar c, x ≠ '>' := by
  unfold escChar
  split
  · decide
  · split
    · decide
    · split
      · decide
      · split
        · decide
        · rename_i h1 h2 h3 h4
          intro x hx
          simp only [List.mem_singleton] at hx
          subst hx
          exact h3

theorem escapeChars_no_gt (s : List Char) : ∀ x ∈ escapeChars s, x ≠ '>' := by
  induction s with
  | nil => simp [escapeChars]
  | cons c cs ih =>
    intro x hx
    simp only [escapeChars, List.mem_append] at hx
    rcases hx with hx | hx
    · exact escChar_no_gt c x hx
    · exact ih x hx

theorem escChar_no_dq (c : Char) : ∀ x ∈ escChar c, x ≠ dq := by
  unfold escChar
  split
  · decide
  · split
    · decide
    · split
      · decide
      · split
        · decide
        · rename_i h1 h2 h3 h4
          intro x hx
          simp only [List.mem_singleton] at hx
          subst hx
          exact h4

theorem escapeChars_no_dq (s : List Char) : ∀ x ∈ escapeChars s, x ≠ dq := by
  induction s with
  | nil => simp [escapeChars]
  | cons c cs ih =>
    intro x hx
    simp only [escapeChars, List.mem_append] at hx
    rcases hx with hx | hx
    · exact escChar_no_dq c x hx
    · exact ih x hx

theorem hasPfx_self_append (pat x : List Char) : hasPfx pat (pat ++ x) = true :=
  hasPfx_iff_isPfx.mpr (List.prefix_append pat x)

theorem decodeEnt_escape (l : List Char) : decodeEnt (escapeChars l) = l := by
  induction l with
  | nil => simp [escapeChars, decodeEnt]
  | cons c cs ih =>
    show decodeEnt (escChar c ++ escapeChars cs) = c :: cs
    by_cases h1 : c = '&'
    · subst h1
      rw [show escChar '&' = "&amp;".toList from rfl]
      rw [show ("&amp;".toList : List Char) ++ escapeChars cs
          = '&' :: ("amp;".toList ++ escapeChars cs) from rfl]
      rw [show decodeEnt ('&' :: ("amp;".toList ++ escapeChars cs))
          = '&' :: decodeEnt (("amp;".toList ++ escapeChars cs).drop 4) by
        simp only [decodeEnt]
        rw [if_true, if_pos (hasPfx_self_append "amp;".toList _)]]
      rw [show ("amp;".toList ++ escapeChars cs).drop 4 = escapeChars cs from rfl]
      rw [ih]
    · by_cases h2 : c = '<'
      · subst h2
        rw [show escChar '<' = "&lt;".toList from rfl]
        rw [show ("&lt;".toList : List Char) ++ escapeChars cs
            = '&' :: ("lt;".toList ++ escapeChars cs) from rfl]
        rw [show decodeEnt ('&' :: ("lt;".toList ++ escapeChars cs))
            = '<' :: decodeEnt (("lt;".toList ++ escapeChars cs).drop 3) by
          simp only [decodeEnt]
          rw [if_true]
          rw [if_neg (fun hq => nomatch hq), if_pos (hasPfx_self_append "lt;".toList _)]]
        rw [show ("lt;".toList ++ escapeChars cs).drop 3 = escapeChars cs from rfl]
        rw [ih]
      · by_cases h3 : c = '>'
        · subst h3
          rw [show escChar '>' = "&gt;".toList from rfl]
          rw [show ("&gt;".toList : List Char) ++ escapeChars cs
              = '&' :: ("gt;".toList ++ escapeChars cs) from rfl]
          rw [show decodeEnt ('&' :: ("gt;".toList ++ escapeChars cs))
              = '>' :: decodeEnt (("gt;".toList ++ escapeChars cs).drop 3) by
            simp only [decodeEnt]
            rw [if_true]
            rw [if_neg (fun hq => nomatch hq), if_neg (fun hq => nomatch hq),
              if_pos (hasPfx_self_append "gt;".toList _)]]
          rw [show ("gt;".toList ++ escapeChars cs).drop 3 = escapeChars cs from rfl]
          rw [ih]
        · by_cases h4 : c = dq
          · subst h4
            rw [show escChar dq = "&quot;".toList from rfl]
            rw [show ("&quot;".toList : List Char) ++ escapeChars cs
                = '&' :: ("quot;".toList ++ escapeChars cs) from rfl]
            rw [show decodeEnt ('&' :: ("quot;".toList ++ escapeChars cs))
                = dq :: decodeEnt (("quot;".toList ++ escapeChars cs).drop 5) by
              simp only [decodeEnt]
              rw [if_true]
              rw [if_neg (fun hq => nomatch hq), if_neg (fun hq => nomatch hq),
                if_neg (fun hq => nomatch hq),
                if_pos (hasPfx_self_append "quot;".toList _)]]
            rw [show ("quot;".toList ++ escapeChars cs).drop 5
                = escapeChars cs from rfl]
            rw [ih]
          · rw [show escChar c = [c] by
              unfold escChar
              rw [if_neg h1, if_neg h2, if_neg h3, if_neg h4]]
            rw [show ([c] : List Char) ++ escapeChars cs
                = c :: escapeChars cs from rfl]
            rw [show decodeEnt (c :: escapeChars cs)
                = c :: decodeEnt (escapeChars cs) by
              simp only [decodeEnt]
              rw [if_neg h1]]
            rw [ih]

theorem dropWhile_cons_pos {p : Char → Bool} {c : Char} {l : List Char}
    (h : p c = true) : (c :: l).dropWhile p = l.dropWhile p := by
  simp [List.dropWhile_cons, h]

theorem dropWhile_cons_neg {p : Char → Bool} {c : Char} {l : List Char}
    (h : p c = false) : (c :: l).dropWhile p = c :: l := by
  simp [List.dropWhile_cons, h]

theorem parseAttrs_nil (fuel : Nat) : parseAttrs fuel [] = [] := by
  cases fuel <;> rfl

theorem keepAttr_name_ne_nil {p : SecurityPolicy} {av : List Char × List Char}
    (h : keepAttr p av = true) : av.1 ≠ [] := by
  unfold keepAttr at h
  simp only [Bool.and_eq_true] at h
  have := h.1.1.1.1
  simp only [Bool.not_eq_true'] at this
  exact fun hq => by simp [hq] at this

/-- One parsing step over a serialized attribute: the exact shape the
serializer emits re-parses to the attribute and hands the remainder to
the recursive call. -/
theorem parseAttrs_step (m : Nat) (a v R : List Char)
    (hane : a ≠ []) (hall : a.all isLowerAlnumHyphen = true) :
    parseAttrs (m + 1) (' ' :: (a ++ '=' :: dq :: (escapeChars v ++ dq :: R)))
      = (a, v) :: parseAttrs m R := by
  obtain ⟨a0, a', rfl⟩ : ∃ a0 a', a = a0 :: a' := by
    cases a with
    | nil => exact absurd rfl hane
    | cons x y => exact ⟨x, y, rfl⟩
  have hmem : ∀ x ∈ a0 :: a', isLowerAlnumHyphen x = true :=
    List.all_eq_true.mp hall
  have hl1 : ((' ' :: ((a0 :: a') ++ '=' :: dq ::
      (escapeChars v ++ dq :: R)))).dropWhile isSpaceC
      = (a0 :: a') ++ '=' :: dq :: (escapeChars v ++ dq :: R) := by
    rw [dropWhile_cons_pos (by decide)]
    rw [List.cons_append]
    rw [dropWhile_cons_neg (isLAH_not_space (hmem a0 (by simp)))]
  have hnm : ((a0 :: a') ++ '=' :: dq ::
      (escapeChars v ++ dq :: R)).takeWhile isAttrNameChar = a0 :: a' :=
    takeWhile_all_stop '=' _ (fun x hx => isLAH_attrNameChar (hmem x hx))
      (by decide)
  have hmap : (a0 :: a').map lowerC = a0 :: a' :=
    map_self (fun x hx => isLAH_lowerC_fix (hmem x hx))
  have hdrop : ((a0 :: a') ++ '=' :: dq ::
      (escapeChars v ++ dq :: R)).drop (a0 :: a').length
      = '=' :: dq :: (escapeChars v ++ dq :: R) := List.drop_left _ _
  have htke : (escapeChars v ++ dq :: R).takeWhile (fun c => c ≠ dq)
      = escapeChars v :=
    takeWhile_all_stop dq R
      (fun x hx => by
        simp only [decide_eq_true_eq]
        exact escapeChars_no_dq v x hx)
      (by simp)
  have hdke : (escapeChars v ++ dq :: R).dropWhile (fun c => c ≠ dq)
      = dq :: R :=
    dropWhile_all_stop dq R
      (fun x hx => by
        simp only [decide_eq_true_eq]
        exact escapeChars_no_dq v x hx)
      (by simp)
  simp only [parseAttrs, hl1]
  rw [hnm, hmap, hdrop]
  split
  · rename_i heq
    exact absurd heq (by simp)
  · rename_i c cs heq
    split
    · rename_i l3 heq2
      injection heq2 with heq1 heq2b
      subst heq2b
      rw [show (dq :: (escapeChars v ++ dq :: R)).dropWhile isSpaceC
          = dq :: (escapeChars v ++ dq :: R) from dropWhile_cons_neg (by decide)]
      split
      · rename_i heq3
        exact absurd heq3 (by simp)
      · rename_i q t heq3
        injection heq3 with heq4 heq5
        subst heq4
        subst heq5
        rw [if_pos (by decide : isQuoteC dq = true)]
        rw [htke, hdke]
        rw [decodeEnt_escape]
        rfl
    · rename_i hq
      exact absurd rfl (hq (dq :: (escapeChars v ++ dq :: R)))

theorem serAttrs_length_cons (a v : List Char)
    (rest : List (List Char × List Char)) :
    (serAttrs ((a, v) :: rest)).length
      = a.length + (escapeChars v).length + (serAttrs rest).length + 4 := by
  show (' ' :: (a ++ '=' :: dq :: (escapeChars v ++ dq :: serAttrs rest))).length = _
  simp [List.length_append]
  omega

/-- The serializer/parser round trip on attribute lists that passed
the sanitizer's filter. -/
theorem parseAttrs_ser (p : SecurityPolicy) (attrs : List (List Char × List Char)) :
    ∀ fuel, (∀ av ∈ attrs, keepAttr p av = true) →
      (serAttrs attrs).length + 1 ≤ fuel →
      parseAttrs fuel (serAttrs attrs) = attrs := by
  induction attrs with
  | nil => intro fuel _ _; exact parseAttrs_nil fuel
  | cons av rest ih =>
    obtain ⟨a, v⟩ := av
    intro fuel hk hf
    have hka := hk (a, v) (by simp)
    have hane : a ≠ [] := keepAttr_name_ne_nil hka
    have hall : a.all isLowerAlnumHyphen = true := keepAttr_name_chars hka
    cases fuel with
    | zero => exact absurd hf (by omega)
    | succ m =>
      have hstep := parseAttrs_step m a v (serAttrs rest) hane hall
      have hser : serAttrs ((a, v) :: rest)
          = ' ' :: (a ++ '=' :: dq :: (escapeChars v ++ dq :: serAttrs rest)) := rfl
      rw [hser, hstep]
      congr 1
      apply ih m (fun av2 h2 => hk av2 (by simp [h2]))
      have hlen := serAttrs_length_cons a v rest
      omega

/-! ## C6: idempotence of the sanitizer

Strategy: every token list the sanitizer emits is in a normal form
(tag names allow-listed, attributes all passing the filter, text runs
non-empty and non-adjacent); serializing such a list and lexing the
result returns the same list, and the filtering and merging passes fix
it.  Idempotence is then a calculation. -/

theorem allowedTags_isName : ∀ n ∈ allowedTags, n.all isNameChar = true := by
  decide

theorem allowedTags_lower : ∀ n ∈ allowedTags, n.map lowerC = n := by decide

theorem allowedTags_no_gt : ∀ n ∈ allowedTags, ∀ x ∈ n, x ≠ '>' := by decide

theorem allowedTags_ne_nil : ∀ n ∈ allowedTags, n ≠ [] := by decide

theorem allowedTags_head : ∀ n ∈ allowedTags, n.headD ' ' ≠ '/' := by decide

theorem serAttrs_no_gt {attrs : List (List Char × List Char)}
    (h : ∀ av ∈ attrs, (av : List Char × List Char).1.all isLowerAlnumHyphen = true) :
    ∀ x ∈ serAttrs attrs, x ≠ '>' := by
  induction attrs with
  | nil => simp [serAttrs]
  | cons av rest ih =>
    obtain ⟨a, v⟩ := av
    intro x hx
    rw [show serAttrs ((a, v) :: rest)
        = ' ' :: (a ++ '=' :: dq :: (escapeChars v ++ dq :: serAttrs rest))
      from rfl] at hx
    rcases List.mem_cons.mp hx with rfl | hx
    · decide
    rcases List.mem_append.mp hx with hx | hx
    · exact isLAH_ne_gt (List.all_eq_true.mp (h (a, v) (by simp)) x hx)
    rcases List.mem_cons.mp hx with rfl | hx
    · decide
    rcases List.mem_cons.mp hx with rfl | hx
    · decide
    rcases List.mem_append.mp hx with hx | hx
    · exact escapeChars_no_gt v x hx
    rcases List.mem_cons.mp hx with rfl | hx
    · decide
    exact ih (fun av2 h2 => h av2 (by simp [h2])) x hx

theorem lexF_nil (fuel : Nat) : lexF fuel [] = [] := by
  cases fuel <;> rfl

theorem lexF_cons_ne_lt {c : Char} (f : Nat) (cs : List Char) (h : c ≠ '<') :
    lexF (f + 1) (c :: cs)
      = .text (decodeEnt ((c :: cs).takeWhile (fun x => x ≠ '<')))
        :: lexF f ((c :: cs).dropWhile (fun x => x ≠ '<')) := by
  simp only [lexF, if_neg h]

theorem lexF_cons_lt (f : Nat) (cs rest : List Char)
    (h : cs.dropWhile (fun x => x ≠ '>') = '>' :: rest) :
    lexF (f + 1) ('<' :: cs)
      = lexTag (cs.takeWhile (fun x => x ≠ '>')) :: lexF f rest := by
  simp only [lexF, eq_self_iff_true, if_true, h]

theorem lexF_text (f : Nat) (t R : List Char) (ht : t ≠ [])
    (hR : R = [] ∨ ∃ R0, R = '<' :: R0) :
    lexF (f + 1) (escapeChars t ++ R) = .text t :: lexF f R := by
  obtain ⟨c, cs, hcc⟩ : ∃ c cs, escapeChars t = c :: cs := by
    cases hec : escapeChars t with
    | nil => exact absurd hec (escapeChars_ne_nil ht)
    | cons c cs => exact ⟨c, cs, rfl⟩
  have hclt : c ≠ '<' := escapeChars_no_lt t c (by rw [hcc]; simp)
  have htw : (escapeChars t ++ R).takeWhile (fun x => x ≠ '<') = escapeChars t := by
    rcases hR with rfl | ⟨R0, rfl⟩
    · rw [List.append_nil]
      exact takeWhile_all (fun x hx => by
        simp only [decide_eq_true_eq]
        exact escapeChars_no_lt t x hx)
    · exact takeWhile_all_stop '<' R0
        (fun x hx => by
          simp only [decide_eq_true_eq]
          exact escapeChars_no_lt t x hx)
        (by simp)
  have hdw : (escapeChars t ++ R).dropWhile (fun x => x ≠ '<') = R := by
    rcases hR with rfl | ⟨R0, rfl⟩
    · rw [List.append_nil]
      exact dropWhile_all (fun x hx => by
        simp only [decide_eq_true_eq]
        exact escapeChars_no_lt t x hx)
    · exact dropWhile_all_stop '<' R0
        (fun x hx => by
          simp only [decide_eq_true_eq]
          exact escapeChars_no_lt t x hx)
        (by simp)
  rw [hcc] at htw hdw
  simp only [List.cons_append] at htw hdw
  rw [hcc, List.cons_append, lexF_cons_ne_lt f (cs ++ R) hclt, htw, hdw]
  rw [← hcc, decodeEnt_escape]

theorem lexF_tagOpen (p : SecurityPolicy) (f : Nat) (n : List Char)
    (attrs : List (List Char × List Char)) (R : List Char)
    (hn : n ∈ allowedTags) (hk : ∀ av ∈ attrs, keepAttr p av = true) :
    lexF (f + 1) ('<' :: (n ++ (serAttrs attrs ++ '>' :: R)))
      = .tagOpen n attrs :: lexF f R := by
  have hno_gt : ∀ x ∈ n ++ serAttrs attrs,
      (fun x => decide (x ≠ '>')) x = true := by
    intro x hx
    simp only [decide_eq_true_eq]
    rcases List.mem_append.mp hx with hx | hx
    · exact allowedTags_no_gt n hn x hx
    · exact serAttrs_no_gt (fun av h2 => keepAttr_name_chars (hk av h2)) x hx
  have hdw : (n ++ (serAttrs attrs ++ '>' :: R)).dropWhile (fun x => x ≠ '>')
      = '>' :: R := by
    have h0 := dropWhile_all_stop '>' R hno_gt (by simp)
    simpa [List.append_assoc] using h0
  have htw : (n ++ (serAttrs attrs ++ '>' :: R)).takeWhile (fun x => x ≠ '>')
      = n ++ serAttrs attrs := by
    have h0 := takeWhile_all_stop '>' R hno_gt (by simp)
    simpa [List.append_assoc] using h0
  rw [lexF_cons_lt f _ R hdw, htw]
  congr 1
  have hhead : (n ++ serAttrs attrs).headD ' ' ≠ '/' := by
    obtain ⟨n0, n1, rfl⟩ : ∃ n0 n1, n = n0 :: n1 := by
      cases n with
      | nil => exact absurd rfl (allowedTags_ne_nil [] hn)
      | cons a b => exact ⟨a, b, rfl⟩
    exact allowedTags_head (n0 :: n1) hn
  unfold lexTag
  rw [if_neg hhead]
  have htwn : (n ++ serAttrs attrs).takeWhile isNameChar = n := by
    cases attrs with
    | nil =>
      rw [show serAttrs [] = [] from rfl, List.append_nil]
      exact takeWhile_all
        (fun x hx => List.all_eq_true.mp (allowedTags_isName n hn) x hx)
    | cons av rest =>
      obtain ⟨a, v⟩ := av
      rw [show serAttrs ((a, v) :: rest)
          = ' ' :: (a ++ '=' :: dq :: (escapeChars v ++ dq :: serAttrs rest))
        from rfl]
      exact takeWhile_all_stop ' ' _
        (fun x hx => List.all_eq_true.mp (allowedTags_isName n hn) x hx)
        (by decide)
  rw [htwn, allowedTags_lower n hn, List.drop_left]
  rw [parseAttrs_ser p attrs _ hk (by simp [List.length_append])]

theorem lexF_tagClose (f : Nat) (n : List Char) (R : List Char)
    (hn : n ∈ allowedTags) :
    lexF (f + 1) ('<' :: '/' :: (n ++ '>' :: R)) = .tagClose n :: lexF f R := by
  have hngt : ∀ x ∈ n, (fun x => decide (x ≠ '>')) x = true := by
    intro x hx
    simp only [decide_eq_true_eq]
    exact allowedTags_no_gt n hn x hx
  have hdw : ('/' :: (n ++ '>' :: R)).dropWhile (fun x => x ≠ '>') = '>' :: R := by
    rw [dropWhile_cons_pos (by simp)]
    exact dropWhile_all_stop '>' R hngt (by simp)
  have htw : ('/' :: (n ++ '>' :: R)).takeWhile (fun x => x ≠ '>') = '/' :: n := by
    have h1 : (n ++ '>' :: R).takeWhile (fun x => x ≠ '>') = n :=
      takeWhile_all_stop '>' R hngt (by simp)
    rw [List.takeWhile_cons, if_pos (by decide), h1]
  rw [lexF_cons_lt f _ R hdw, htw]
  congr 1
  unfold lexTag
  rw [if_pos (show (('/' :: n).headD ' ') = '/' from rfl)]
  rw [show ('/' :: n).drop 1 = n from rfl]
  rw [takeWhile_all
    (fun x hx => List.all_eq_true.mp (allowedTags_isName n hn) x hx)]
  rw [allowedTags_lower n hn]

/-- A token whose tag data is exactly what the sanitizer can emit:
allow-listed (lower-case) names, attributes all passing the filter. -/
def TagOk (p : SecurityPolicy) : Tok → Prop
  | .text _ => True
  | .tagOpen n attrs => n ∈ allowedTags ∧ ∀ av ∈ attrs, keepAttr p av = true
  | .tagClose n => n ∈ allowedTags

/-- The head of a token list is not a text token. -/
def NotTextHead : List Tok → Prop
  | .text _ :: _ => False
  | _ => True

/-- Text tokens are non-empty and never adjacent. -/
def TextSep : List Tok → Prop
  | [] => True
  | .text s :: ts => s ≠ [] ∧ NotTextHead ts ∧ TextSep ts
  | _ :: ts => TextSep ts

theorem serToks_length_ge (ts : List Tok) (h : TextSep ts) :
    ts.length ≤ (serToks ts).length := by
  induction ts with
  | nil => simp [serToks]
  | cons t ts ih =>
    rw [show serToks (t :: ts) = serTok t ++ serToks ts from rfl,
        List.length_append, List.length_cons]
    cases t with
    | text s =>
      obtain ⟨hne, _, hsep⟩ := h
      have h1 : 0 < (escapeChars s).length :=
        List.length_pos.mpr (escapeChars_ne_nil hne)
      have h2 := ih hsep
      rw [show serTok (Tok.text s) = escapeChars s from rfl]
      omega
    | tagOpen n attrs =>
      have h2 := ih h
      rw [show serTok (Tok.tagOpen n attrs)
          = '<' :: (n ++ (serAttrs attrs ++ ['>'])) from rfl]
      simp only [List.length_cons]
      omega
    | tagClose n =>
      have h2 := ih h
      rw [show serTok (Tok.tagClose n) = '<' :: '/' :: (n ++ ['>']) from rfl]
      simp only [List.length_cons]
      omega

/-- Lexing the serialization of a normal-form token list recovers it. -/
theorem lexF_serToks (p : SecurityPolicy) (ts : List Tok) :
    ∀ fuel, (∀ t ∈ ts, TagOk p t) → TextSep ts → ts.length ≤ fuel →
      lexF fuel (serToks ts) = ts := by
  induction ts with
  | nil =>
    intro fuel _ _ _
    rw [show serToks [] = [] from rfl]
    exact lexF_nil fuel
  | cons t ts ih =>
    intro fuel htag hsep hlen
    cases fuel with
    | zero => simp at hlen
    | succ f =>
      have hlen2 : ts.length ≤ f := by
        simp only [List.length_cons] at hlen
        omega
      have htag2 : ∀ u ∈ ts, TagOk p u := fun u hu => htag u (by simp [hu])
      cases t with
      | text s =>
        obtain ⟨hne, hhd, hsep2⟩ := hsep
        have hR : serToks ts = [] ∨ ∃ R0, serToks ts = '<' :: R0 := by
          cases ts with
          | nil => exact Or.inl rfl
          | cons u us =>
            cases u with
            | text r => exact hhd.elim
            | tagOpen m attrs =>
              exact Or.inr ⟨m ++ (serAttrs attrs ++ ['>']) ++ serToks us, rfl⟩
            | tagClose m => exact Or.inr ⟨'/' :: (m ++ ['>']) ++ serToks us, rfl⟩
        rw [show serToks (Tok.text s :: ts) = escapeChars s ++ serToks ts
          from rfl]
        rw [lexF_text f s (serToks ts) hne hR]
        rw [ih f htag2 hsep2 hlen2]
      | tagOpen n attrs =>
        obtain ⟨hn, hk⟩ := htag (Tok.tagOpen n attrs) (by simp)
        have hsep2 : TextSep ts := hsep
        rw [show serToks (Tok.tagOpen n attrs :: ts)
            = '<' :: (n ++ (serAttrs attrs ++ '>' :: serToks ts)) by
          simp [serToks, serTok, List.append_assoc]]
        rw [lexF_tagOpen p f n attrs (serToks ts) hn hk]
        rw [ih f htag2 hsep2 hlen2]
      | tagClose n =>
        have hn : n ∈ allowedTags := htag (Tok.tagClose n) (by simp)
        have hsep2 : TextSep ts := hsep
        rw [show serToks (Tok.tagClose n :: ts)
            = '<' :: '/' :: (n ++ '>' :: serToks ts) by
          simp [serToks, serTok, List.append_assoc]]
        rw [lexF_tagClose f n (serToks ts) hn]
        rw [ih f htag2 hsep2 hlen2]

theorem lex_serToks (p : SecurityPolicy) (ts : List Tok)
    (htag : ∀ t ∈ ts, TagOk p t) (hsep : TextSep ts) :
    lex (serToks ts) = ts := by
  unfold lex
  exact lexF_serToks p ts _ htag hsep
    (Nat.le_succ_of_le (serToks_length_ge ts hsep))

theorem filterAttrs_fix {p : SecurityPolicy}
    {attrs : List (List Char × List Char)}
    (h : ∀ av ∈ attrs, keepAttr p av = true) : filterAttrs p attrs = attrs := by
  unfold filterAttrs
  exact List.filter_eq_self.mpr h

theorem mem_filterAttrs {p : SecurityPolicy}
    {attrs : List (List Char × List Char)} {av : List Char × List Char}
    (h : av ∈ filterAttrs p attrs) : keepAttr p av = true :=
  List.of_mem_filter h

/-- On a normal-form stream the filtering pass is the identity. -/
theorem sanLoop_fix (p : SecurityPolicy) (ts : List Tok)
    (h : ∀ t ∈ ts, TagOk p t) : sanLoop p none ts = ts := by
  induction ts with
  | nil => rfl
  | cons t ts ih =>
    have ih2 := ih (fun u hu => h u (by simp [hu]))
    cases t with
    | text s =>
      rw [show sanLoop p none (Tok.text s :: ts)
          = Tok.text s :: sanLoop p none ts from rfl, ih2]
    | tagOpen n attrs =>
      obtain ⟨hn, hk⟩ := h (Tok.tagOpen n attrs) (by simp)
      rw [show sanLoop p none (Tok.tagOpen n attrs :: ts)
          = if n ∈ allowedTags then
              Tok.tagOpen n (filterAttrs p attrs) :: sanLoop p none ts
            else if n ∈ dropContentTags then sanLoop p (some n) ts
            else sanLoop p none ts from rfl]
      rw [if_pos hn, filterAttrs_fix hk, ih2]
    | tagClose n =>
      have hn : n ∈ allowedTags := h (Tok.tagClose n) (by simp)
      rw [show sanLoop p none (Tok.tagClose n :: ts)
          = if n ∈ allowedTags then Tok.tagClose n :: sanLoop p none ts
            else sanLoop p none ts from rfl]
      rw [if_pos hn, ih2]

theorem consText_not_text {s : List Char} {ts : List Tok} (hs : s ≠ [])
    (hh : NotTextHead ts) : consText s ts = Tok.text s :: ts := by
  unfold consText
  rw [if_neg (by
    cases s with
    | nil => exact absurd rfl hs
    | cons a l => simp)]
  cases ts with
  | nil => rfl
  | cons u us =>
    cases u with
    | text t => exact hh.elim
    | tagOpen n attrs => rfl
    | tagClose n => rfl

/-- On a normal-form stream the merging pass is the identity. -/
theorem mt_fix (ts : List Tok) (h : TextSep ts) : mt ts = ts := by
  induction ts with
  | nil => rfl
  | cons t ts ih =>
    cases t with
    | text s =>
      obtain ⟨hne, hhd, hsep⟩ := h
      rw [show mt (Tok.text s :: ts) = consText s (mt ts) from rfl]
      rw [ih hsep]
      exact consText_not_text hne hhd
    | tagOpen n attrs =>
      rw [show mt (Tok.tagOpen n attrs :: ts) = Tok.tagOpen n attrs :: mt ts
        from rfl]
      rw [ih h]
    | tagClose n =>
      rw [show mt (Tok.tagClose n :: ts) = Tok.tagClose n :: mt ts from rfl]
      rw [ih h]

/-- Every token the filtering pass emits is tag-normal. -/
theorem sanLoop_tagOk (p : SecurityPolicy) :
    ∀ ts st, ∀ t ∈ sanLoop p st ts, TagOk p t := by
  intro ts
  induction ts with
  | nil =>
    intro st t ht
    cases st <;> simp [sanLoop] at ht
  | cons u us ih =>
    intro st t ht
    cases st with
    | some n =>
      cases u with
      | text s => exact ih (some n) t ht
      | tagOpen m attrs => exact ih (some n) t ht
      | tagClose m =>
        rw [show sanLoop p (some n) (Tok.tagClose m :: us)
            = if m = n then sanLoop p none us else sanLoop p (some n) us
          from rfl] at ht
        by_cases hmn : m = n
        · rw [if_pos hmn] at ht
          exact ih none t ht
        · rw [if_neg hmn] at ht
          exact ih (some n) t ht
    | none =>
      cases u with
      | text s =>
        rw [show sanLoop p none (Tok.text s :: us)
            = Tok.text s :: sanLoop p none us from rfl] at ht
        rcases List.mem_cons.mp ht with rfl | ht
        · trivial
        · exact ih none t ht
      | tagOpen n attrs =>
        rw [show sanLoop p none (Tok.tagOpen n attrs :: us)
            = if n ∈ allowedTags then
                Tok.tagOpen n (filterAttrs p attrs) :: sanLoop p none us
              else if n ∈ dropContentTags then sanLoop p (some n) us
              else sanLoop p none us from rfl] at ht
        by_cases hn : n ∈ allowedTags
        · rw [if_pos hn] at ht
          rcases List.mem_cons.mp ht with rfl | ht
          · exact ⟨hn, fun av hav => mem_filterAttrs hav⟩
          · exact ih none t ht
        · rw [if_neg hn] at ht
          by_cases hd : n ∈ dropContentTags
          · rw [if_pos hd] at ht
            exact ih (some n) t ht
          · rw [if_neg hd] at ht
            exact ih none t ht
      | tagClose n =>
        rw [show sanLoop p none (Tok.tagClose n :: us)
            = if n ∈ allowedTags then Tok.tagClose n :: sanLoop p none us
              else sanLoop p none us from rfl] at ht
        by_cases hn : n ∈ allowedTags
        · rw [if_pos hn] at ht
          rcases List.mem_cons.mp ht with rfl | ht
          · exact hn
          · exact ih none t ht
        · rw [if_neg hn] at ht
          exact ih none t ht

theorem consText_tagOk {p : SecurityPolicy} {s : List Char} {ts : List Tok}
    (h : ∀ t ∈ ts, TagOk p t) : ∀ t ∈ consText s ts, TagOk p t := by
  intro t ht
  unfold consText at ht
  by_cases hs : s.isEmpty
  · rw [if_pos hs] at ht
    exact h t ht
  · rw [if_neg hs] at ht
    cases ts with
    | nil =>
      rcases List.mem_cons.mp ht with rfl | ht
      · trivial
      · exact h t ht
    | cons u us =>
      cases u with
      | text r =>
        rcases List.mem_cons.mp ht with rfl | ht
        · trivial
        · exact h t (by simp [ht])
      | tagOpen n attrs =>
        rcases List.mem_cons.mp ht with rfl | ht
        · trivial
        · exact h t ht
      | tagClose n =>
        rcases List.mem_cons.mp ht with rfl | ht
        · trivial
        · exact h t ht

theorem mt_tagOk {p : SecurityPolicy} {ts : List Tok}
    (h : ∀ t ∈ ts, TagOk p t) : ∀ t ∈ mt ts, TagOk p t := by
  induction ts with
  | nil => simp [mt]
  | cons u us ih =>
    have h2 := ih (fun t ht => h t (by simp [ht]))
    cases u with
    | text s =>
      rw [show mt (Tok.text s :: us) = consText s (mt us) from rfl]
      exact consText_tagOk h2
    | tagOpen n attrs =>
      rw [show mt (Tok.tagOpen n attrs :: us) = Tok.tagOpen n attrs :: mt us
        from rfl]
      intro t ht
      rcases List.mem_cons.mp ht with rfl | ht
      · exact h (Tok.tagOpen n attrs) (by simp)
      · exact h2 t ht
    | tagClose n =>
      rw [show mt (Tok.tagClose n :: us) = Tok.tagClose n :: mt us from rfl]
      intro t ht
      rcases List.mem_cons.mp ht with rfl | ht
      · exact h (Tok.tagClose n) (by simp)
      · exact h2 t ht

theorem consText_sep (s : List Char) {ts : List Tok} (h : TextSep ts) :
    TextSep (consText s ts) := by
  unfold consText
  by_cases hs : s.isEmpty
  · rw [if_pos hs]
    exact h
  · rw [if_neg hs]
    have hsne : s ≠ [] := by
      cases s with
      | nil => exact absurd rfl hs
      | cons a l => simp
    cases ts with
    | nil => exact ⟨hsne, trivial, trivial⟩
    | cons u us =>
      cases u with
      | text t =>
        obtain ⟨htne, hhd, hsep⟩ := h
        exact ⟨fun hq => htne (List.append_eq_nil.mp hq).2, hhd, hsep⟩
      | tagOpen n attrs => exact ⟨hsne, trivial, h⟩
      | tagClose n => exact ⟨hsne, trivial, h⟩

/-- The merging pass always yields separated non-empty text runs. -/
theorem mt_sep (ts : List Tok) : TextSep (mt ts) := by
  induction ts with
  | nil => trivial
  | cons u us ih =>
    cases u with
    | text s => exact consText_sep s ih
    | tagOpen n attrs => exact ih
    | tagClose n => exact ih

/-- **C6.** `sanitize_html` is idempotent: running the sanitizer on its
own output returns that output unchanged, for every input string and
every policy. -/
theorem sanitize_html_idem (html : String) (p : SecurityPolicy) :
    sanitize_html (sanitize_html html p) p = sanitize_html html p := by
  unfold sanitize_html
  have htag : ∀ t ∈ mt (sanLoop p none (lex html.data)), TagOk p t :=
    mt_tagOk (fun t ht => sanLoop_tagOk p (lex html.data) none t ht)
  have hsep := mt_sep (sanLoop p none (lex html.data))
  rw [show (String.mk (serToks (mt (sanLoop p none (lex html.data))))).data
      = serToks (mt (sanLoop p none (lex html.data))) from rfl]
  rw [lex_serToks p _ htag hsep]
  rw [sanLoop_fix p _ htag]
  rw [mt_fix _ hsep]

end SecureBlog
